import Mathlib

/-!
Verification of the version algebra, dependency-specifier validation,
manifest construction and validation-report engine of the scanned
repository (a Rust package-validation tool).  Each definition is a
shallow embedding of the corresponding Rust item; the file then settles
the frozen claims C1..C10 about the program.

String handling: the Rust code operates on UTF-8 strings; here strings
are Lean `String`s and the character-level operations (split, compare,
trim) are implemented explicitly over `String.data` so that every proof
is about fully transparent definitions.  Rust byte-wise string
comparison equals code-point lexicographic comparison (UTF-8 preserves
order), which is what `cmpChars` implements.
-/

namespace Vigil

/-- Rust `u32::cmp` / `Ord for u32`. -/
def cmpNat (a b : Nat) : Ordering :=
  if a < b then .lt else if a = b then .eq else .gt

/-- Code-point comparison of characters, matching Rust byte-wise
`str::cmp` (UTF-8 order equals code-point order). -/
def cmpChar (a b : Char) : Ordering := cmpNat a.toNat b.toNat

/-- Lexicographic comparison of character lists: Rust `str::cmp`. -/
def cmpChars : List Char → List Char → Ordering
  | [], [] => .eq
  | [], _ :: _ => .lt
  | _ :: _, [] => .gt
  | a :: as_, b :: bs =>
    match cmpChar a b with
    | .eq => cmpChars as_ bs
    | o => o

/-- Rust `str::cmp` on `String`. -/
def cmpStr (a b : String) : Ordering := cmpChars a.data b.data

/-- Split a character list on a separator character; mirrors Rust
`str::split(c)` (and `String.splitOn` for a one-character pattern):
always returns at least one (possibly empty) group. -/
def splitOnChar (c : Char) : List Char → List (List Char)
  | [] => [[]]
  | x :: xs =>
    match splitOnChar c xs with
    | [] => [[]] -- unreachable: splitOnChar never returns []
    | g :: gs => if x = c then [] :: g :: gs else (x :: g) :: gs

/-- Join groups with a separator character; inverse of `splitOnChar`,
mirrors Rust `Vec::join(".")`. -/
def joinSep (c : Char) : List (List Char) → List Char
  | [] => []
  | [g] => g
  | g :: gs => g ++ c :: joinSep c gs

/-- Rust `str::starts_with`, via the character lists (Lean's
`String.startsWith` does not reduce in the kernel). -/
def startsWithStr (s pre : String) : Bool := pre.data.isPrefixOf s.data

/-- Rust `str::ends_with`. -/
def endsWithStr (s suf : String) : Bool :=
  suf.data.reverse.isPrefixOf s.data.reverse

/-- Rust `u32::from_str`: optional leading `+`, one or more ASCII
digits, value must fit in 32 bits (overflow is a parse error). -/
def parseU32 (cs : List Char) : Option Nat :=
  let t := match cs with
    | '+' :: rest => rest
    | _ => cs
  if t.isEmpty then none
  else if t.all Char.isDigit then
    let n := t.foldl (fun acc c => acc * 10 + (c.toNat - 48)) 0
    if n < 4294967296 then some n else none
  else none

--------------------------------------------------------------------------------
-- version_spec.rs

/-- `enum VersionPart { Number(u32), Text(String) }`. -/
inductive VersionPart where
  | number : Nat → VersionPart
  | text : String → VersionPart
deriving DecidableEq, Repr

/-- `struct VersionSpec(Vec<VersionPart>)`. -/
abbrev VersionSpec := List VersionPart

/-- `VersionSpec::new`: split on `.`; each part that parses as `u32`
becomes `Number`, any other part is kept as `Text`. -/
def VersionSpec.new (s : String) : VersionSpec :=
  (splitOnChar '.' s.data).map fun part =>
    match parseU32 part with
    | some n => .number n
    | none => .text ⟨part⟩

/-- Rendering of one part in `impl fmt::Display for VersionSpec`. -/
def VersionPart.render : VersionPart → List Char
  | .number n => (toString n).data
  | .text t => t.data

/-- `impl fmt::Display for VersionSpec`: join rendered parts with `.`. -/
def VersionSpec.display (v : VersionSpec) : String :=
  ⟨joinSep '.' (v.map VersionPart.render)⟩

/-- Position-wise comparison in `impl Ord for VersionSpec`:
number vs number by value; text vs text equal under a `*` wildcard,
else string order; number vs non-wildcard text is greater. -/
def cmpPart : VersionPart → VersionPart → Ordering
  | .number a, .number b => cmpNat a b
  | .text a, .text b => if a = "*" ∨ b = "*" then .eq else cmpStr a b
  | .number _, .text b => if b = "*" then .eq else .gt
  | .text a, .number _ => if a = "*" then .eq else .lt

/-- Comparison of an exhausted (all `Number 0` padded) left side
against the remaining right parts; the `a.len < b.len` tail of the
`impl Ord for VersionSpec` loop. -/
def cmpZeros : VersionSpec → Ordering
  | [] => .eq
  | y :: ys =>
    match cmpPart (.number 0) y with
    | .eq => cmpZeros ys
    | o => o

/-- `impl Ord for VersionSpec`: compare position-by-position up to the
longer length, zero-padding the shorter side with `Number(0)`, and
short-circuit on the first non-equal position.  The loop over indices
is rendered as structural recursion on the left side; an exhausted side
contributes `Number 0` at every remaining position. -/
def cmpVS : VersionSpec → VersionSpec → Ordering
  | [], b => cmpZeros b
  | x :: xs, [] =>
    match cmpPart x (.number 0) with
    | .eq => cmpVS xs []
    | o => o
  | x :: xs, y :: ys =>
    match cmpPart x y with
    | .eq => cmpVS xs ys
    | o => o

/-- Position-wise test in `impl PartialEq for VersionSpec`: equal under
a `*` wildcard on either side, else exact match of the same constructor. -/
def eqPart : VersionPart → VersionPart → Bool
  | .text a, .text b => if a = "*" ∨ b = "*" then true else a == b
  | .text a, .number _ => a == "*"
  | .number _, .text b => b == "*"
  | .number a, .number b => a == b

/-- The exhausted-left tail of the `impl PartialEq` loop. -/
def eqZeros : VersionSpec → Bool
  | [] => true
  | y :: ys => eqPart (.number 0) y && eqZeros ys

/-- `impl PartialEq for VersionSpec`: every position (zero-padded to the
longer side) must pass `eqPart`. -/
def eqVS : VersionSpec → VersionSpec → Bool
  | [], b => eqZeros b
  | x :: xs, [] => eqPart x (.number 0) && eqVS xs []
  | x :: xs, y :: ys => eqPart x y && eqVS xs ys

/-- `VersionSpec::is_compatible`: both first parts are numbers and they
are equal; anything else is `false`. -/
def VersionSpec.is_compatible (self other : VersionSpec) : Bool :=
  match self.head?, other.head? with
  | some (.number a), some (.number b) => a == b
  | _, _ => false

/-- `VersionSpec::is_arbitrary_equal`: rendered strings are equal. -/
def VersionSpec.is_arbitrary_equal (self other : VersionSpec) : Bool :=
  self.display == other.display

/-- The upper-bound loop of `VersionSpec::is_caret`: walk the parts,
counting numeric parts; at the first numeric part `n` with
`n ≠ 0 ∨ (count = 1 ∧ ub_len = 1)` replace it by `n+1` and truncate. -/
def caretUB (ubLen : Nat) : VersionSpec → Nat → VersionSpec
  | [], _ => []
  | .number n :: rest, count =>
    if n ≠ 0 ∨ (count + 1 = 1 ∧ ubLen = 1) then [.number (n + 1)]
    else .number n :: caretUB ubLen rest (count + 1)
  | .text t :: rest, count => .text t :: caretUB ubLen rest count

/-- `VersionSpec::is_caret`. -/
def VersionSpec.is_caret (self other : VersionSpec) : Bool :=
  if cmpVS other self = .lt then false
  else cmpVS other (caretUB self.length self 0) = .lt

/-- The upper-bound loop of `VersionSpec::is_tilde`: replace (and
truncate after) the second numeric part, or the first when the spec has
exactly one part. -/
def tildeUB (ubLen : Nat) : VersionSpec → Nat → VersionSpec
  | [], _ => []
  | .number n :: rest, count =>
    if count + 1 = 2 ∨ (count + 1 = 1 ∧ ubLen = 1) then [.number (n + 1)]
    else .number n :: tildeUB ubLen rest (count + 1)
  | .text t :: rest, count => .text t :: tildeUB ubLen rest count

/-- `VersionSpec::is_tilde`. -/
def VersionSpec.is_tilde (self other : VersionSpec) : Bool :=
  if cmpVS other self = .lt then false
  else cmpVS other (tildeUB self.length self 0) = .lt

--------------------------------------------------------------------------------
-- util.rs

/-- Rust `char::to_lowercase` restricted to its effect on the ASCII
package-name alphabet used by `name_to_key` (Lean's `Char.toLower`
implements the same single-character mapping). -/
def lowerChar (c : Char) : Char := c.toLower

/-- `name_to_key`: lowercase and replace `-` with `_`. -/
def name_to_key (name : String) : String :=
  ⟨name.data.map fun c => if lowerChar c = '-' then '_' else lowerChar c⟩

/-- Rust `str::trim` (Lean's whitespace predicate matches the ASCII
whitespace any input in this development contains). -/
def trimStr (s : String) : String :=
  ⟨((s.data.dropWhile Char.isWhitespace).reverse.dropWhile
      Char.isWhitespace).reverse⟩

/-- `url_trim`: trim whitespace and remove one leading `@`, then trim. -/
def url_trim (input : String) : String :=
  let t := trimStr input
  match t.data with
  | '@' :: rest => trimStr ⟨rest⟩
  | _ => t

/-- Index of the first occurrence of `sub` in `l`, if any
(Rust `str::find` for a literal pattern). -/
def findSeq (sub : List Char) : List Char → Option Nat
  | [] => if sub = [] then some 0 else none
  | x :: xs =>
    if sub.isPrefixOf (x :: xs) then some 0
    else (findSeq sub xs).map (· + 1)

/-- `url_strip_user`: after the first `://` find the first `@`; when no
`/` occurs before it, remove the span up to and including the `@`. -/
def url_strip_user (url : String) : String :=
  match findSeq "://".data url.data with
  | none => url
  | some posProtocol =>
    let posStart := posProtocol + 3
    let post := url.data.drop posStart
    match findSeq ['@'] post with
    | none => url
    | some posSpan =>
      if (post.take (posSpan + 1)).contains '/' then url
      else ⟨url.data.take posStart ++ post.drop (posSpan + 1)⟩

--------------------------------------------------------------------------------
-- package_durl.rs

/-- `struct VcsInfo` from the per-package `direct_url.json`. -/
structure VcsInfo where
  commit_id : String
  vcs : String
  requested_revision : Option String
deriving DecidableEq, Repr

/-- `struct DirectURL`. -/
structure DirectURL where
  url : String
  vcs_info : Option VcsInfo
deriving DecidableEq, Repr

/-- `DirectURL::validate`: strip userinfo from both URLs; with VCS info
compare `<vcs>+<stripped-url>@<requested_revision>` (when present) or
`<vcs>+<stripped-url>@<commit_id>` against the stripped spec URL;
without VCS info compare the stripped URLs directly. -/
def DirectURL.validate (self : DirectURL) (url : String) : Bool :=
  let url_dep_spec := url_strip_user url
  let url_durl := url_strip_user self.url
  match self.vcs_info with
  | some vi =>
    (match vi.requested_revision with
     | some rr => vi.vcs ++ "+" ++ url_durl ++ "@" ++ rr == url_dep_spec
     | none => false)
    || (vi.vcs ++ "+" ++ url_durl ++ "@" ++ vi.commit_id == url_dep_spec)
  | none => url_durl == url_dep_spec

--------------------------------------------------------------------------------
-- package.rs (not under src/)

/-- Modelled from the spec: the `Package` record itself lives in
`package.rs`, which is not among the provided sources; §3 of the spec
gives its attributes — name, normalized key, version, optional
DirectURL — and §4.5 gives its ordering, by `(key, version)`. -/
structure Package where
  name : String
  key : String
  version : VersionSpec
  direct_url : Option DirectURL
deriving DecidableEq, Repr

/-- Modelled from the spec: `Package` ordering is by `(key, version)`
(spec §4.5), with the key compared as a Rust string and the version by
the `Ord` of `VersionSpec`. -/
def cmpPackage (a b : Package) : Ordering :=
  match cmpStr a.key b.key with
  | .eq => cmpVS a.version b.version
  | o => o

--------------------------------------------------------------------------------
-- dep_spec.rs

/-- `enum DepOperator`. -/
inductive DepOperator where
  | lessThan | lessThanOrEq | eq | notEq | greaterThan | greaterThanOrEq
  | compatible | arbitraryEq | caret | tilde
deriving DecidableEq, Repr

/-- `impl fmt::Display for DepOperator`. -/
def DepOperator.render : DepOperator → String
  | .lessThan => "<"
  | .lessThanOrEq => "<="
  | .eq => "=="
  | .notEq => "!="
  | .greaterThan => ">"
  | .greaterThanOrEq => ">="
  | .compatible => "~="
  | .arbitraryEq => "==="
  | .caret => "^"
  | .tilde => "~"

/-- `struct DepSpec` (the `marker_expr` index is omitted: no claim
touches marker evaluation). -/
structure DepSpec where
  name : String
  key : String
  url : Option String
  operators : List DepOperator
  versions : List VersionSpec
  marker : String
deriving DecidableEq, Repr

instance : Inhabited DepSpec := ⟨⟨"", "", none, [], [], ""⟩⟩

/-- `DepSpec::validate_version`: every `(op, ver)` clause must hold;
note the `Compatible` arm calls only `is_compatible` (no `≥` check). -/
def DepSpec.validate_version (self : DepSpec) (version : VersionSpec) : Bool :=
  (self.operators.zip self.versions).all fun (op, spec_version) =>
    match op with
    | .lessThan => cmpVS version spec_version == .lt
    | .lessThanOrEq => cmpVS version spec_version != .gt
    | .eq => eqVS version spec_version
    | .notEq => !eqVS version spec_version
    | .greaterThan => cmpVS version spec_version == .gt
    | .greaterThanOrEq => cmpVS version spec_version != .lt
    | .compatible => spec_version.is_compatible version
    | .arbitraryEq => spec_version.is_arbitrary_equal version
    | .caret => spec_version.is_caret version
    | .tilde => spec_version.is_tilde version

/-- `DepSpec::validate_url`: a spec without URL passes; a spec with a
URL requires the package to carry a DirectURL that validates it. -/
def DepSpec.validate_url (self : DepSpec) (package : Package) : Bool :=
  match self.url with
  | some url =>
    match package.direct_url with
    | some durl => durl.validate url
    | none => false
  | none => true

/-- `DepSpec::validate_package`: key equality, version clauses, URL. -/
def DepSpec.validate_package (self : DepSpec) (package : Package) : Bool :=
  self.key == package.key
    && self.validate_version package.version
    && self.validate_url package

/-- `impl fmt::Display for DepSpec`: with versions, `name` followed by
comma-joined `op ++ ver`; else with a URL, `name @ stripped-url`;
else just the name. -/
def DepSpec.display (self : DepSpec) : String :=
  if self.versions ≠ [] then
    self.name ++ String.intercalate ","
      ((self.operators.zip self.versions).map fun (op, ver) =>
        op.render ++ ver.display)
  else
    match self.url with
    | some url => self.name ++ " @ " ++ url_strip_user url
    | none => self.name

/-- Rust `Path::file_stem` as used by `DepSpec::from_whl` on a URL
string: the last `/`-separated component, with the portion after its
last `.` (the extension) removed when one exists. -/
def fileStem (s : String) : String :=
  let name := (splitOnChar '/' s.data).getLastD []
  match splitOnChar '.' name with
  | [] => ⟨name⟩
  | [_] => ⟨name⟩
  | segs => ⟨joinSep '.' segs.dropLast⟩

/-- `DepSpec.from_whl`: for an `http://`, `https://`, or
(`file://` and `*.whl`) URL — the Rust condition associates exactly this
way — take the file stem, split on `-`; with at least two pieces the
first is the name and the second the `==` version. -/
def DepSpec.from_whl (input : String) : Option DepSpec :=
  let input := trimStr input
  if startsWithStr input "http://" || startsWithStr input "https://"
      || (startsWithStr input "file://" && endsWithStr input ".whl") then
    let name := fileStem input
    match splitOnChar '-' name.data with
    | p0 :: p1 :: _ =>
      let package_name : String := ⟨p0⟩
      some { name := package_name
             key := name_to_key package_name
             url := some input
             operators := [.eq]
             versions := [VersionSpec.new ⟨p1⟩]
             marker := "" }
    | _ => none
  else none

/-- Characters admitted in a package name by the specifier grammar.
Modelled from the spec: the pest grammar file `dep_spec.pest` is not
among the provided sources; spec §4.2 admits names of letters, digits,
`.`, `-`, `_`. -/
def isNameChar (c : Char) : Bool :=
  c.isAlphanum || c = '-' || c = '_' || c = '.'

/-- Characters admitted in a version token by the specifier grammar.
Modelled from the spec: §4.2 allows wildcard `.*`, pre/post-release
tags and arbitrary-equality values such as `12++`. -/
def isVersionChar (c : Char) : Bool :=
  c.isAlphanum || c = '.' || c = '*' || c = '+' || c = '-'
    || c = '_' || c = '!'

/-- Operator spellings tried longest-first, as in
`impl FromStr for DepOperator` (the grammar tokenizes the operator and
`from_str` maps it). -/
def opTable : List (String × DepOperator) :=
  [("===", .arbitraryEq), ("==", .eq), ("!=", .notEq),
   ("<=", .lessThanOrEq), (">=", .greaterThanOrEq), ("~=", .compatible),
   ("<", .lessThan), (">", .greaterThan), ("^", .caret), ("~", .tilde)]

/-- Parse one `<op><version>` clause (whitespace-tolerant, as the pest
grammar is).  Modelled from the spec for the token shapes; the operator
set is `impl FromStr for DepOperator` from the source. -/
def parseOpVer (s : String) : Option (DepOperator × VersionSpec) :=
  let t := trimStr s
  match opTable.find? (fun e => startsWithStr t e.1) with
  | none => none
  | some (p, op) =>
    let ver := trimStr ⟨t.data.drop p.data.length⟩
    if ver.data ≠ [] ∧ ver.data.all isVersionChar then
      some (op, VersionSpec.new ver)
    else none

/-- `DepSpec::from_string`.  The `from_whl` fast path, the wheel
override of a parsed URL and the name-mismatch check are from the
source; the requirement-line grammar itself is modelled from the spec
(§4.2: name, optional extras in brackets, comma-separated
operator/version pairs, optional `@ url`, optional `; marker`) because
`dep_spec.pest` is not among the provided sources. -/
def DepSpec.from_string (input : String) : Except String DepSpec :=
  match DepSpec.from_whl input with
  | some ds => .ok ds
  | none =>
    let s := trimStr input
    let nameChars := s.data.takeWhile isNameChar
    if nameChars.isEmpty then .error "Missing package name" else
    let package_name : String := ⟨nameChars⟩
    let key := name_to_key package_name
    let rest := trimStr ⟨s.data.drop nameChars.length⟩
    let rest? : Option String :=
      match rest.data with
      | '[' :: more =>
        match findSeq [']'] more with
        | some i => some (trimStr ⟨more.drop (i + 1)⟩)
        | none => none
      | _ => some rest
    match rest? with
    | none => .error "Parsing error: unclosed extras"
    | some rest =>
      match rest.data with
      | '@' :: _ =>
        let url := url_trim rest
        match DepSpec.from_whl url with
        | some ds =>
          if ds.key = key then .ok ds
          else .error "Provided name does not match whl name"
        | none =>
          .ok { name := package_name, key := key, url := some url
                operators := [], versions := [], marker := "" }
      | _ =>
        let (specPart, markerPart) :=
          match findSeq [';'] rest.data with
          | some i =>
            (trimStr ⟨rest.data.take i⟩, trimStr ⟨rest.data.drop (i + 1)⟩)
          | none => (trimStr rest, "")
        if specPart.data.isEmpty then
          .ok { name := package_name, key := key, url := none
                operators := [], versions := [], marker := markerPart }
        else
          let toks := (splitOnChar ',' specPart.data).map
            fun t => parseOpVer ⟨t⟩
          if toks.all Option.isSome then
            let pairs := toks.filterMap id
            .ok { name := package_name, key := key, url := none
                  operators := pairs.map (·.1)
                  versions := pairs.map (·.2), marker := markerPart }
          else .error "Parsing error"

--------------------------------------------------------------------------------
-- dep_manifest.rs

/-- `enum DepSpecOneOrMany`. -/
inductive DepSpecOneOrMany where
  | one : DepSpec → DepSpecOneOrMany
  | many : List DepSpec → DepSpecOneOrMany
deriving DecidableEq, Repr

/-- `DepSpecOneOrMany::add`: grow the entry into a `Many`. -/
def DepSpecOneOrMany.add (self : DepSpecOneOrMany) (dep : DepSpec) :
    DepSpecOneOrMany :=
  match self with
  | .one existing => .many [existing, dep]
  | .many v => .many (v ++ [dep])

/-- `DepManifest.dep_specs`: `HashMap<String, DepSpecOneOrMany>`,
modelled as an association list with map semantics (lookup by key). -/
abbrev DepManifest := List (String × DepSpecOneOrMany)

/-- `HashMap::get` on the manifest. -/
def lookupSpec (dm : DepManifest) (key : String) : Option DepSpecOneOrMany :=
  dm.lookup key

/-- The duplicate-key branch of `DepManifest::from_iter`: a key
collision replaces the entry by `existing.add(new)`, otherwise a `One`
entry is inserted. -/
def insertMerge (dm : DepManifest) (ds : DepSpec) : DepManifest :=
  if (dm.lookup ds.key).isSome then
    dm.map fun e => if e.1 = ds.key then (e.1, e.2.add ds) else e
  else dm ++ [(ds.key, .one ds)]

/-- `DepManifest::from_iter`: trim each line, skip empties, parse with
`DepSpec::from_string`, and insert with duplicate-key merging. -/
def DepManifest.from_iter (lines : List String) : Except String DepManifest :=
  lines.foldlM (fun dm line =>
    let spec := trimStr line
    if spec.data.isEmpty then pure dm
    else (DepSpec.from_string spec).map (insertMerge dm)) []

/-- `DepManifest::validate`: lookup by the package key; a `One` entry
delegates to `DepSpec::validate_package`; a `Many` entry hits
`panic!("not implemented")`, modelled as `none`; an absent key yields
`(permit_superset, None)`. -/
def DepManifest.validate (dm : DepManifest) (package : Package)
    (permit_superset : Bool) : Option (Bool × Option DepSpec) :=
  match lookupSpec dm package.key with
  | some (.one ds) => some (ds.validate_package package, some ds)
  | some (.many _) => none
  | none => some (permit_superset, none)

/-- `DepManifest::get_dep_spec`: `One` yields the spec, `Many` hits
`panic!("here")` (modelled as `none`), an absent key yields
`Some none`. -/
def DepManifest.get_dep_spec (dm : DepManifest) (key : String) :
    Option (Option DepSpec) :=
  match lookupSpec dm key with
  | some (.one ds) => some (some ds)
  | some (.many _) => none
  | none => some none

/-- Insertion sort by a boolean `le`; models Rust's (stable, correct)
`slice::sort` in the places the source sorts keys and packages. -/
def insertLe (le : α → α → Bool) (x : α) : List α → List α
  | [] => [x]
  | y :: ys => if le x y then x :: y :: ys else y :: insertLe le x ys

/-- See `insertLe`. -/
def sortLe (le : α → α → Bool) : List α → List α
  | [] => []
  | x :: xs => insertLe le x (sortLe le xs)

/-- `String` order used by `Vec<&String>::sort`. -/
def strLe (a b : String) : Bool := cmpStr a b != .gt

/-- `(key, version)` order used by `Vec<Package>::sort` (the `Ord` of
the missing `package.rs`, modelled from spec §4.5). -/
def pkgLe (a b : Package) : Bool := cmpPackage a b != .gt

/-- `DepManifest::get_dep_spec_difference`: the manifest keys not in
`observed`, sorted. -/
def DepManifest.get_dep_spec_difference (dm : DepManifest)
    (observed : List String) : List String :=
  sortLe strLe ((dm.map (·.1)).filter fun k => !observed.contains k)

--------------------------------------------------------------------------------
-- scan_fs.rs / validation_report.rs

/-- The one index of `ScanFS` the validation engine reads:
`package_to_sites` (site handles modelled as strings). -/
structure ScanFS where
  package_to_sites : List (Package × List String)
deriving DecidableEq, Repr

/-- `ScanFS::get_packages`: the package keys of `package_to_sites`,
sorted. -/
def ScanFS.get_packages (scan : ScanFS) : List Package :=
  sortLe pkgLe (scan.package_to_sites.map (·.1))

/-- `ScanFS::package_to_sites.get(&package).cloned()`. -/
def ScanFS.sitesFor (scan : ScanFS) (p : Package) : Option (List String) :=
  scan.package_to_sites.lookup p

/-- `ValidationFlags` (from the `validation_report` module; fields as
used by `ScanFS::to_validation_report`). -/
structure ValidationFlags where
  permit_superset : Bool
  permit_subset : Bool
deriving DecidableEq, Repr

/-- `ValidationRecord` as constructed by `ScanFS::to_validation_report`
(`ValidationRecord::new(package, dep_spec, sites)`). -/
structure ValidationRecord where
  package : Option Package
  dep_spec : Option DepSpec
  sites : Option (List String)
deriving DecidableEq, Repr

/-- `HashSet::insert` on the matched-key set, modelled as a
duplicate-free list. -/
def insertKey (s : List String) (k : String) : List String :=
  if s.contains k then s else s ++ [k]

/-- The per-package loop of `ScanFS::to_validation_report`: validate
each package, record the matched spec key, and push a record when
validation fails; a panic inside `DepManifest::validate` aborts
(`none`). -/
def tvrLoop (dm : DepManifest) (vf : ValidationFlags) (scan : ScanFS) :
    List Package → List ValidationRecord → List String →
    Option (List ValidationRecord × List String)
  | [], recs, matched => some (recs, matched)
  | p :: rest, recs, matched =>
    match dm.validate p vf.permit_superset with
    | none => none
    | some (valid, ds) =>
      let matched' := match ds with
        | some d => insertKey matched d.key
        | none => matched
      let recs' :=
        if !valid then recs ++ [⟨some p, ds, scan.sitesFor p⟩] else recs
      tvrLoop dm vf scan rest recs' matched'

/-- The missing-key loop at the end of `ScanFS::to_validation_report`:
one record per key, looked up with `get_dep_spec` (whose `Many` panic
aborts, propagated as `none`). -/
def missLoop (dm : DepManifest) : List String → Option (List ValidationRecord)
  | [] => some []
  | k :: ks =>
    match dm.get_dep_spec k with
    | none => none
    | some o => (missLoop dm ks).map fun rest =>
        ValidationRecord.mk none o none :: rest

/-- `ScanFS::to_validation_report`: run the per-package loop over the
sorted packages, then — unless `permit_subset` — append one record per
unmatched manifest key. -/
def ScanFS.to_validation_report (scan : ScanFS) (dm : DepManifest)
    (vf : ValidationFlags) : Option (List ValidationRecord) :=
  match tvrLoop dm vf scan scan.get_packages [] [] with
  | none => none
  | some (recs, matched) =>
    if !vf.permit_subset then
      match missLoop dm (dm.get_dep_spec_difference matched) with
      | none => none
      | some misses => some (recs ++ misses)
    else some recs

/-- The record the per-package loop of `to_validation_report` emits for
one package when the manifest holds no unimplemented `Many` entry: a
failing match yields a misdefined record, an unmatched key an
unrequired record unless `permit_superset` (spec §4.9 outcome names). -/
def recOf (dm : DepManifest) (vf : ValidationFlags) (scan : ScanFS)
    (p : Package) : Option ValidationRecord :=
  match lookupSpec dm p.key with
  | some (.one ds) =>
    if ds.validate_package p then none
    else some ⟨some p, some ds, scan.sitesFor p⟩
  | some (.many _) => none
  | none =>
    if vf.permit_superset then none
    else some ⟨some p, none, scan.sitesFor p⟩

--------------------------------------------------------------------------------
-- DepManifest::from_requirements_file (dep_manifest.rs): the work-queue loop

/-- Rust `str::strip_prefix` for a literal pattern. -/
def stripPre (pat : List Char) (l : List Char) : Option (List Char) :=
  if pat.isPrefixOf l then some (l.drop pat.length) else none

/-- `Path::parent` of a `/`-separated path string, as used by
`from_requirements_file` (`fp.parent()`). -/
def dirOf (fp : String) : String :=
  ⟨joinSep '/' (splitOnChar '/' fp.data).dropLast⟩

/-- `parent.join(post)` for a relative `post`. -/
def parentJoin (fp post : String) : String :=
  dirOf fp ++ "/" ++ post

/-- The state of the `from_requirements_file` loop: the `files` work
queue (`VecDeque<PathBuf>`) and the collected specifier lines. -/
structure ReqState where
  files : List String
  dep_specs : List String
deriving DecidableEq, Repr

/-- One line of the `from_requirements_file` inner loop: skip blanks
and comments, push `-r`/`--requirement` targets onto the work queue
(joined to the including file's directory), collect any other line. -/
def reqLine (fp : String) (st : ReqState) (line : String) : ReqState :=
  let t := trimStr line
  if t.data.isEmpty || startsWithStr t "#" then st
  else
    match stripPre "-r ".data t.data with
    | some post => { st with files := st.files ++ [parentJoin fp (trimStr ⟨post⟩)] }
    | none =>
      match stripPre "--requirement ".data t.data with
      | some post => { st with files := st.files ++ [parentJoin fp (trimStr ⟨post⟩)] }
      | none => { st with dep_specs := st.dep_specs ++ [line] }

/-- Outcome of running the `from_requirements_file` loop for a bounded
number of iterations: the loop exited (`done`), failed to open a file
(`fail`), or is still running with the given state. -/
inductive ReqOutcome where
  | done : List String → ReqOutcome
  | fail : ReqOutcome
  | running : ReqState → ReqOutcome
deriving DecidableEq, Repr

/-- The `while !files.is_empty()` loop of `from_requirements_file`,
run for at most `n` iterations over a filesystem given as a map from
path to lines.  The source has no visited set: every pop re-reads the
file and re-enqueues its `-r` targets. -/
def reqRun (fs : List (String × List String)) : Nat → ReqState → ReqOutcome
  | 0, st => .running st
  | n + 1, st =>
    match st.files with
    | [] => .done st.dep_specs
    | fp :: rest =>
      match fs.lookup fp with
      | none => .fail
      | some lines =>
        reqRun fs n (lines.foldl (reqLine fp) { files := rest, dep_specs := st.dep_specs })

--------------------------------------------------------------------------------
-- predicates used by the claims

/-- A version part that is not the `*` wildcard. -/
def wfPart : VersionPart → Bool
  | .text t => t ≠ "*"
  | .number _ => true

/-- A version with no `*` wildcard part. -/
def wildFree (v : VersionSpec) : Bool := v.all wfPart

/-- A dot-separated token whose numeric reading (when it has one) is in
canonical decimal form, so that re-rendering reproduces it. -/
def canonicalTok (cs : List Char) : Bool :=
  match parseU32 cs with
  | some n => (toString n).data == cs
  | none => true

/-- Every dot-separated token of `s` is canonical. -/
def canonicalStr (s : String) : Bool :=
  (splitOnChar '.' s.data).all canonicalTok

/-- `(key, version)` record order between two report records that carry
packages; records without a package compare `true` vacuously (they are
never in the package segment). -/
def recLe (a b : ValidationRecord) : Bool :=
  match a.package, b.package with
  | some p, some q => pkgLe p q
  | _, _ => true

/-- Pairwise check that a record list is `(key, version)`-ordered. -/
def recsOrdered : List ValidationRecord → Bool
  | [] => true
  | r :: rest => rest.all (recLe r) && recsOrdered rest

/-- Pairwise check that the missing-segment keys are ordered. -/
def missOrdered : List ValidationRecord → Bool
  | [] => true
  | r :: rest =>
    rest.all (fun r' =>
      match r.dep_spec, r'.dep_spec with
      | some a, some b => strLe a.key b.key
      | _, _ => true) && missOrdered rest

--------------------------------------------------------------------------------
-- Lemma layer: comparison foundations

theorem cmpNat_eq_iff {a b : Nat} : cmpNat a b = .eq ↔ a = b := by
  unfold cmpNat
  split
  · simp; omega
  · split
    · simpa
    · simp; omega

theorem cmpNat_lt_iff {a b : Nat} : cmpNat a b = .lt ↔ a < b := by
  unfold cmpNat
  split
  · simpa
  · split
    · simp; omega
    · simp; omega

theorem cmpNat_gt_iff {a b : Nat} : cmpNat a b = .gt ↔ b < a := by
  unfold cmpNat
  split
  · simp; omega
  · split
    · simp; omega
    · simp; omega

theorem cmpChar_eq_iff {a b : Char} : cmpChar a b = .eq ↔ a = b := by
  unfold cmpChar
  rw [cmpNat_eq_iff]
  constructor
  · intro h
    exact Char.ext (UInt32.ext h)
  · intro h
    rw [h]

theorem cmpChars_eq_iff : ∀ {l m : List Char}, cmpChars l m = .eq ↔ l = m := by
  intro l
  induction l with
  | nil =>
    intro m
    cases m <;> simp [cmpChars]
  | cons x xs ih =>
    intro m
    cases m with
    | nil => simp [cmpChars]
    | cons y ys =>
      simp only [cmpChars]
      cases hxy : cmpChar x y with
      | eq =>
        rw [cmpChar_eq_iff] at hxy
        simp [hxy, ih]
      | lt =>
        have : x ≠ y := fun h => by simp [h, cmpChar_eq_iff.mpr rfl] at hxy
        simp [this]
      | gt =>
        have : x ≠ y := fun h => by simp [h, cmpChar_eq_iff.mpr rfl] at hxy
        simp [this]

theorem cmpChars_lt_trans : ∀ {a b c : List Char},
    cmpChars a b = .lt → cmpChars b c = .lt → cmpChars a c = .lt := by
  intro a
  induction a with
  | nil =>
    intro b c h1 h2
    cases b with
    | nil => simp [cmpChars] at h1
    | cons y ys =>
      cases c with
      | nil => simp [cmpChars] at h2
      | cons z zs => simp [cmpChars]
  | cons x xs ih =>
    intro b c h1 h2
    cases b with
    | nil => simp [cmpChars] at h1
    | cons y ys =>
      cases c with
      | nil => simp [cmpChars] at h2
      | cons z zs =>
        simp only [cmpChars] at h1 h2 ⊢
        cases hxy : cmpChar x y with
        | gt => simp [hxy] at h1
        | eq =>
          have hxy2 : x = y := cmpChar_eq_iff.mp hxy
          subst hxy2
          have h1' : cmpChars xs ys = .lt := by simpa [hxy] using h1
          cases hyz : cmpChar x z with
          | gt => simp [hyz] at h2
          | eq =>
            have h2' : cmpChars ys zs = .lt := by simpa [hyz] using h2
            simp [hyz, ih h1' h2']
          | lt => simp [hyz]
        | lt =>
          cases hyz : cmpChar y z with
          | gt => simp [hyz] at h2
          | eq =>
            have hyz2 : y = z := cmpChar_eq_iff.mp hyz
            subst hyz2
            simp [hxy]
          | lt =>
            have hlt : cmpChar x z = .lt := by
              unfold cmpChar at hxy hyz ⊢
              rw [cmpNat_lt_iff] at hxy hyz ⊢
              omega
            simp [hlt]

theorem cmpChar_swap (a b : Char) : cmpChar a b = (cmpChar b a).swap := by
  unfold cmpChar cmpNat
  rcases Nat.lt_trichotomy a.toNat b.toNat with h | h | h
  · have h1 : ¬ b.toNat < a.toNat := by omega
    have h2 : b.toNat ≠ a.toNat := by omega
    simp [h, h1, h2, Ordering.swap]
  · have h1 : ¬ a.toNat < b.toNat := by omega
    have h2 : ¬ b.toNat < a.toNat := by omega
    simp [h, h1, h2, Ordering.swap]
  · have h1 : ¬ a.toNat < b.toNat := by omega
    have h2 : a.toNat ≠ b.toNat := by omega
    simp [h, h1, h2, Ordering.swap]

theorem cmpChars_swap : ∀ (a b : List Char), cmpChars a b = (cmpChars b a).swap := by
  intro a
  induction a with
  | nil => intro b; cases b <;> simp [cmpChars, Ordering.swap]
  | cons x xs ih =>
    intro b
    cases b with
    | nil => simp [cmpChars, Ordering.swap]
    | cons y ys =>
      simp only [cmpChars]
      rw [cmpChar_swap]
      cases cmpChar y x <;> simp [Ordering.swap, ih]

theorem strEq_data {a b : String} : a = b ↔ a.data = b.data := by
  constructor
  · intro h; rw [h]
  · intro h
    cases a; cases b
    exact congrArg String.mk h

theorem cmpStr_eq_iff {a b : String} : cmpStr a b = .eq ↔ a = b := by
  unfold cmpStr
  rw [cmpChars_eq_iff]
  exact strEq_data.symm

theorem cmpNat_swap (a b : Nat) : cmpNat a b = (cmpNat b a).swap := by
  unfold cmpNat
  rcases Nat.lt_trichotomy a b with h | h | h
  · have h1 : ¬ b < a := by omega
    have h2 : b ≠ a := by omega
    simp [h, h1, h2, Ordering.swap]
  · have h1 : ¬ a < b := by omega
    have h2 : ¬ b < a := by omega
    simp [h, h1, h2, Ordering.swap]
  · have h1 : ¬ a < b := by omega
    have h2 : a ≠ b := by omega
    simp [h, h1, h2, Ordering.swap]

--------------------------------------------------------------------------------
-- Lemma layer: version parts

theorem eqPart_iff_cmpPart {x y : VersionPart} :
    eqPart x y = true ↔ cmpPart x y = .eq := by
  cases x with
  | number a =>
    cases y with
    | number b => simp [eqPart, cmpPart, cmpNat_eq_iff]
    | text b =>
      by_cases h : b = "*" <;> simp [eqPart, cmpPart, h]
  | text a =>
    cases y with
    | number b =>
      by_cases h : a = "*" <;> simp [eqPart, cmpPart, h]
    | text b =>
      by_cases h : a = "*" ∨ b = "*"
      · simp [eqPart, cmpPart, h]
      · simp [eqPart, cmpPart, h, cmpStr_eq_iff]

theorem cmpPart_eq_iff_wf {x y : VersionPart} (hx : wfPart x = true)
    (hy : wfPart y = true) : cmpPart x y = .eq ↔ x = y := by
  cases x with
  | number a =>
    cases y with
    | number b => simp [cmpPart, cmpNat_eq_iff]
    | text b =>
      simp only [wfPart, decide_eq_true_eq] at hy
      simp [cmpPart, hy]
  | text a =>
    cases y with
    | number b =>
      simp only [wfPart, decide_eq_true_eq] at hx
      simp [cmpPart, hx]
    | text b =>
      simp only [wfPart, decide_eq_true_eq] at hx hy
      simp [cmpPart, hx, hy, cmpStr_eq_iff]

theorem cmpPart_swap (x y : VersionPart) : cmpPart x y = (cmpPart y x).swap := by
  cases x with
  | number a =>
    cases y with
    | number b => exact cmpNat_swap a b
    | text b => by_cases h : b = "*" <;> simp [cmpPart, h, Ordering.swap]
  | text a =>
    cases y with
    | number b => by_cases h : a = "*" <;> simp [cmpPart, h, Ordering.swap]
    | text b =>
      by_cases h : a = "*" ∨ b = "*"
      · simp [cmpPart, h, Or.comm.mp h, Ordering.swap]
      · have h' : ¬ (b = "*" ∨ a = "*") := fun hc => h (Or.comm.mp hc)
        simp only [cmpPart, if_neg h, if_neg h']
        unfold cmpStr
        rw [cmpChars_swap]

theorem cmpPart_lt_trans_wf {x y z : VersionPart} (hx : wfPart x = true)
    (hy : wfPart y = true) (hz : wfPart z = true)
    (h1 : cmpPart x y = .lt) (h2 : cmpPart y z = .lt) :
    cmpPart x z = .lt := by
  cases x with
  | number a =>
    cases y with
    | number b =>
      cases z with
      | number c =>
        simp only [cmpPart, cmpNat_lt_iff] at h1 h2 ⊢
        omega
      | text c =>
        simp only [wfPart, decide_eq_true_eq] at hz
        simp [cmpPart, hz] at h2
    | text b =>
      simp only [wfPart, decide_eq_true_eq] at hy
      simp [cmpPart, hy] at h1
  | text a =>
    simp only [wfPart, decide_eq_true_eq] at hx
    cases y with
    | number b =>
      cases z with
      | number c => simp [cmpPart, hx]
      | text c =>
        simp only [wfPart, decide_eq_true_eq] at hz
        simp [cmpPart, hz] at h2
    | text b =>
      simp only [wfPart, decide_eq_true_eq] at hy
      cases z with
      | number c => simp [cmpPart, hx]
      | text c =>
        simp only [wfPart, decide_eq_true_eq] at hz
        have g1 : ¬ (a = "*" ∨ b = "*") := by tauto
        have g2 : ¬ (b = "*" ∨ c = "*") := by tauto
        have g3 : ¬ (a = "*" ∨ c = "*") := by tauto
        simp only [cmpPart, if_neg g1] at h1
        simp only [cmpPart, if_neg g2] at h2
        simp only [cmpPart, if_neg g3]
        exact cmpChars_lt_trans h1 h2

--------------------------------------------------------------------------------
-- Lemma layer: version ordering

theorem cmpVS_step {a b : VersionSpec} (h : a ≠ [] ∨ b ≠ []) :
    cmpVS a b =
      match cmpPart (a.headD (.number 0)) (b.headD (.number 0)) with
      | .eq => cmpVS a.tail b.tail
      | o => o := by
  match a, b with
  | [], [] => simp at h
  | _ :: _, [] => simp only [cmpVS, List.headD_cons, List.headD_nil,
      List.tail_cons, List.tail_nil]
  | [], _ :: _ => simp only [cmpVS, cmpZeros, List.headD_cons, List.headD_nil,
      List.tail_cons, List.tail_nil]
  | _ :: _, _ :: _ => simp only [cmpVS, List.headD_cons, List.tail_cons]

theorem cmpZeros_swap : ∀ b : VersionSpec, cmpZeros b = (cmpVS b []).swap := by
  intro b
  induction b with
  | nil => rfl
  | cons y ys ih =>
    simp only [cmpZeros, cmpVS]
    rw [cmpPart_swap]
    cases cmpPart y (.number 0) <;> simp [Ordering.swap, ih]

theorem cmpVS_swap : ∀ (a b : VersionSpec), cmpVS a b = (cmpVS b a).swap := by
  intro a
  induction a with
  | nil =>
    intro b
    exact cmpZeros_swap b
  | cons x xs ih =>
    intro b
    cases b with
    | nil =>
      have h0 : cmpVS [] (x :: xs) = cmpZeros (x :: xs) := rfl
      rw [h0, cmpZeros_swap (x :: xs), Ordering.swap_swap]
    | cons y ys =>
      simp only [cmpVS]
      rw [cmpPart_swap]
      cases cmpPart y x <;> simp [Ordering.swap, ih]

theorem eqZeros_iff : ∀ b : VersionSpec, eqZeros b = true ↔ cmpZeros b = .eq := by
  intro b
  induction b with
  | nil => simp [eqZeros, cmpZeros]
  | cons y ys ih =>
    simp only [eqZeros, cmpZeros, Bool.and_eq_true]
    rw [eqPart_iff_cmpPart]
    cases cmpPart (.number 0) y <;> simp [ih]

theorem eqVS_iff_cmpVS : ∀ (a b : VersionSpec),
    eqVS a b = true ↔ cmpVS a b = .eq := by
  intro a
  induction a with
  | nil =>
    intro b
    exact eqZeros_iff b
  | cons x xs ih =>
    intro b
    cases b with
    | nil =>
      simp only [eqVS, cmpVS, Bool.and_eq_true]
      rw [eqPart_iff_cmpPart]
      cases cmpPart x (.number 0) <;> simp [ih]
    | cons y ys =>
      simp only [eqVS, cmpVS, Bool.and_eq_true]
      rw [eqPart_iff_cmpPart]
      cases cmpPart x y <;> simp [ih]

theorem wfHead {a : VersionSpec} (h : wildFree a = true) :
    wfPart (a.headD (.number 0)) = true := by
  cases a with
  | nil => rfl
  | cons x xs =>
    simp only [wildFree, List.all_cons, Bool.and_eq_true] at h
    simpa using h.1

theorem wfTail {a : VersionSpec} (h : wildFree a = true) :
    wildFree a.tail = true := by
  cases a with
  | nil => rfl
  | cons x xs =>
    simp only [wildFree, List.all_cons, Bool.and_eq_true] at h
    simpa [wildFree] using h.2

/-- Combined transitivity of the version comparison on wildcard-free
versions: `≤` is transitive, a strict-less on either side forces
strict-less, and equality is transitive. -/
theorem cmpVS_trans_wf : ∀ (n : Nat) (a b c : VersionSpec),
    a.length + b.length + c.length ≤ n →
    wildFree a = true → wildFree b = true → wildFree c = true →
    cmpVS a b ≠ .gt → cmpVS b c ≠ .gt →
    cmpVS a c ≠ .gt ∧
      ((cmpVS a b = .lt ∨ cmpVS b c = .lt) → cmpVS a c = .lt) ∧
      (cmpVS a b = .eq → cmpVS b c = .eq → cmpVS a c = .eq) := by
  intro n
  induction n with
  | zero =>
    intro a b c hn _ _ _ _ _
    have ha : a = [] := List.eq_nil_of_length_eq_zero (by omega)
    have hb : b = [] := List.eq_nil_of_length_eq_zero (by omega)
    have hc : c = [] := List.eq_nil_of_length_eq_zero (by omega)
    subst ha; subst hb; subst hc
    simp [cmpVS, cmpZeros]
  | succ n ih =>
    intro a b c hn ha hb hc h1 h2
    by_cases hall : a = [] ∧ b = [] ∧ c = []
    · rcases hall with ⟨h1', h2', h3'⟩
      subst h1'; subst h2'; subst h3'
      simp [cmpVS, cmpZeros]
    · have hab : a ≠ [] ∨ b ≠ [] ∨ c ≠ [] := by tauto
      have hstep_ab : cmpVS a b =
          match cmpPart (a.headD (.number 0)) (b.headD (.number 0)) with
          | .eq => cmpVS a.tail b.tail
          | o => o := by
        rcases hab with h | h | h
        · exact cmpVS_step (Or.inl h)
        · exact cmpVS_step (Or.inr h)
        · by_cases hA : a = []
          · by_cases hB : b = []
            · subst hA; subst hB; simp [cmpVS, cmpZeros, cmpPart, cmpNat]
            · exact cmpVS_step (Or.inr hB)
          · exact cmpVS_step (Or.inl hA)
      have hstep_bc : cmpVS b c =
          match cmpPart (b.headD (.number 0)) (c.headD (.number 0)) with
          | .eq => cmpVS b.tail c.tail
          | o => o := by
        by_cases hB : b = []
        · by_cases hC : c = []
          · subst hB; subst hC; simp [cmpVS, cmpZeros, cmpPart, cmpNat]
          · exact cmpVS_step (Or.inr hC)
        · exact cmpVS_step (Or.inl hB)
      have hstep_ac : cmpVS a c =
          match cmpPart (a.headD (.number 0)) (c.headD (.number 0)) with
          | .eq => cmpVS a.tail c.tail
          | o => o := by
        by_cases hA : a = []
        · by_cases hC : c = []
          · subst hA; subst hC; simp [cmpVS, cmpZeros, cmpPart, cmpNat]
          · exact cmpVS_step (Or.inr hC)
        · exact cmpVS_step (Or.inl hA)
      have hlen : a.tail.length + b.tail.length + c.tail.length ≤ n := by
        have la := List.length_tail a
        have lb := List.length_tail b
        have lc := List.length_tail c
        have hpos : 0 < a.length ∨ 0 < b.length ∨ 0 < c.length := by
          by_contra hcon
          push_neg at hcon
          exact hall ⟨List.eq_nil_of_length_eq_zero (by omega),
            List.eq_nil_of_length_eq_zero (by omega),
            List.eq_nil_of_length_eq_zero (by omega)⟩
        omega
      have ihT := ih a.tail b.tail c.tail hlen (wfTail ha) (wfTail hb) (wfTail hc)
      rw [hstep_ab] at h1 ⊢
      rw [hstep_bc] at h2 ⊢
      rw [hstep_ac]
      cases h3 : cmpPart (a.headD (.number 0)) (b.headD (.number 0)) with
      | gt =>
        rw [h3] at h1
        simp at h1
      | eq =>
        have hxy : a.headD (.number 0) = b.headD (.number 0) :=
          (cmpPart_eq_iff_wf (wfHead ha) (wfHead hb)).mp h3
        rw [h3] at h1
        simp only [] at h1
        cases h4 : cmpPart (b.headD (.number 0)) (c.headD (.number 0)) with
        | gt =>
          rw [h4] at h2
          simp at h2
        | eq =>
          have hyz : b.headD (.number 0) = c.headD (.number 0) :=
            (cmpPart_eq_iff_wf (wfHead hb) (wfHead hc)).mp h4
          have h5 : cmpPart (a.headD (.number 0)) (c.headD (.number 0)) = .eq := by
            rw [hxy, hyz]
            exact (cmpPart_eq_iff_wf (wfHead hc) (wfHead hc)).mpr rfl
          rw [h4] at h2
          simp only [h3, h4, h5]
          exact ihT h1 h2
        | lt =>
          have h5 : cmpPart (a.headD (.number 0)) (c.headD (.number 0)) = .lt := by
            rw [hxy]; exact h4
          simp only [h3, h4, h5]
          simp
      | lt =>
        cases h4 : cmpPart (b.headD (.number 0)) (c.headD (.number 0)) with
        | gt =>
          rw [h4] at h2
          simp at h2
        | eq =>
          have hyz : b.headD (.number 0) = c.headD (.number 0) :=
            (cmpPart_eq_iff_wf (wfHead hb) (wfHead hc)).mp h4
          have h5 : cmpPart (a.headD (.number 0)) (c.headD (.number 0)) = .lt := by
            rw [← hyz]; exact h3
          simp only [h3, h4, h5]
          simp
        | lt =>
          have h5 := cmpPart_lt_trans_wf (wfHead ha) (wfHead hb) (wfHead hc) h3 h4
          simp only [h3, h4, h5]
          simp

--------------------------------------------------------------------------------
-- Lemma layer: split/join and display

theorem splitOnChar_ne_nil (c : Char) : ∀ l : List Char, splitOnChar c l ≠ [] := by
  intro l
  cases l with
  | nil => simp [splitOnChar]
  | cons x xs =>
    simp only [splitOnChar]
    rcases h : splitOnChar c xs with _ | ⟨g, gs⟩
    · simp
    · by_cases hx : x = c <;> simp [hx]

theorem joinSep_splitOnChar (c : Char) : ∀ l : List Char,
    joinSep c (splitOnChar c l) = l := by
  intro l
  induction l with
  | nil => rfl
  | cons x xs ih =>
    rcases h : splitOnChar c xs with _ | ⟨g, gs⟩
    · exact absurd h (splitOnChar_ne_nil c xs)
    · rw [h] at ih
      simp only [splitOnChar, h]
      by_cases hx : x = c
      · subst hx
        rw [if_pos rfl]
        show joinSep x ([] :: g :: gs) = x :: xs
        have hj : joinSep x ([] :: g :: gs) = [] ++ x :: joinSep x (g :: gs) := rfl
        rw [hj, ih]
        rfl
      · rw [if_neg hx]
        cases gs with
        | nil =>
          show joinSep c [x :: g] = x :: xs
          have h1 : joinSep c [x :: g] = x :: g := rfl
          have h2 : joinSep c [g] = g := rfl
          rw [h2] at ih
          rw [h1, ih]
        | cons g2 gs2 =>
          show joinSep c ((x :: g) :: g2 :: gs2) = x :: xs
          have h1 : joinSep c ((x :: g) :: g2 :: gs2) =
              (x :: g) ++ c :: joinSep c (g2 :: gs2) := rfl
          have h2 : joinSep c (g :: g2 :: gs2) =
              g ++ c :: joinSep c (g2 :: gs2) := rfl
          rw [h1, ← ih, h2]
          rfl

theorem map_id_on {α : Type} (f : α → α) : ∀ l : List α,
    (∀ a ∈ l, f a = a) → l.map f = l := by
  intro l
  induction l with
  | nil => intro _; rfl
  | cons x xs ih =>
    intro h
    simp only [List.map_cons]
    rw [h x (by simp), ih fun a ha => h a (by simp [ha])]

theorem display_new_canonical {s : String} (h : canonicalStr s = true) :
    (VersionSpec.new s).display = s := by
  unfold VersionSpec.display VersionSpec.new
  rw [List.map_map]
  simp only [canonicalStr, List.all_eq_true] at h
  have hmap : (splitOnChar '.' s.data).map
      (VersionPart.render ∘ fun part =>
        match parseU32 part with
        | some n => VersionPart.number n
        | none => VersionPart.text ⟨part⟩) = splitOnChar '.' s.data := by
    apply map_id_on
    intro tok htok
    have hc := h tok htok
    cases hp : parseU32 tok with
    | some n =>
      simp only [canonicalTok, hp, beq_iff_eq] at hc
      simp [VersionPart.render, hp, hc]
    | none => simp [VersionPart.render, hp]
  rw [hmap, joinSep_splitOnChar]

--------------------------------------------------------------------------------
-- Claims

/-- C1: the claim says `validate_version` accepts a `~=V` clause only
when the candidate `W` shares the first numeric component with `V` AND
`W ≥ V`, so a `W` below `V` with the same first component must fail.
The code's `Compatible` arm calls only `is_compatible`: with the spec
`~=2.2`, the version `2.1` shares the first numeric component, is
strictly below `2.2`, and still validates — the `≥` half of the claim
(and of the spec, which the code's own `NOTE` comment admits is not yet
checked) is not implemented. -/
theorem compat_clause_ignores_lower_bound :
    DepSpec.validate_version
      ⟨"package", "package", none, [.compatible], [VersionSpec.new "2.2"], ""⟩
      (VersionSpec.new "2.1") = true ∧
    VersionSpec.is_compatible (VersionSpec.new "2.2") (VersionSpec.new "2.1") = true ∧
    cmpVS (VersionSpec.new "2.1") (VersionSpec.new "2.2") = .lt := by
  refine ⟨by decide, by decide, by decide⟩

/-- C3 counterexample: wildcard equality is not transitive, so the
comparison relation of the claim is not transitive over all parsed
versions: `2.2 == 2.*` and `2.* == 2.3` but `2.2 != 2.3`. -/
theorem wildcard_eq_not_transitive :
    eqVS (VersionSpec.new "2.2") (VersionSpec.new "2.*") = true ∧
    eqVS (VersionSpec.new "2.*") (VersionSpec.new "2.3") = true ∧
    eqVS (VersionSpec.new "2.2") (VersionSpec.new "2.3") = false := by
  refine ⟨by decide, by decide, by decide⟩

/-- C3 (amended): for all strings exactly one of `<`, `==`, `>` holds
(`<`/`>` being the `Ord` result, `==` the `PartialEq` result); and on
versions containing no `*` token the relation is transitive (strict
order, equality, and the non-strict order); transitivity fails in
general for wildcard versions (see the counterexample). -/
theorem version_order_trichotomy_and_wildfree_trans (s1 s2 s3 : String) :
    ((cmpVS (VersionSpec.new s1) (VersionSpec.new s2) = .lt ∧
        eqVS (VersionSpec.new s1) (VersionSpec.new s2) = false ∧
        cmpVS (VersionSpec.new s1) (VersionSpec.new s2) ≠ .gt) ∨
     (cmpVS (VersionSpec.new s1) (VersionSpec.new s2) ≠ .lt ∧
        eqVS (VersionSpec.new s1) (VersionSpec.new s2) = true ∧
        cmpVS (VersionSpec.new s1) (VersionSpec.new s2) ≠ .gt) ∨
     (cmpVS (VersionSpec.new s1) (VersionSpec.new s2) ≠ .lt ∧
        eqVS (VersionSpec.new s1) (VersionSpec.new s2) = false ∧
        cmpVS (VersionSpec.new s1) (VersionSpec.new s2) = .gt)) ∧
    (wildFree (VersionSpec.new s1) = true →
     wildFree (VersionSpec.new s2) = true →
     wildFree (VersionSpec.new s3) = true →
      (cmpVS (VersionSpec.new s1) (VersionSpec.new s2) = .lt →
        cmpVS (VersionSpec.new s2) (VersionSpec.new s3) = .lt →
        cmpVS (VersionSpec.new s1) (VersionSpec.new s3) = .lt) ∧
      (eqVS (VersionSpec.new s1) (VersionSpec.new s2) = true →
        eqVS (VersionSpec.new s2) (VersionSpec.new s3) = true →
        eqVS (VersionSpec.new s1) (VersionSpec.new s3) = true) ∧
      (cmpVS (VersionSpec.new s1) (VersionSpec.new s2) ≠ .gt →
        cmpVS (VersionSpec.new s2) (VersionSpec.new s3) ≠ .gt →
        cmpVS (VersionSpec.new s1) (VersionSpec.new s3) ≠ .gt)) := by
  constructor
  · cases h : cmpVS (VersionSpec.new s1) (VersionSpec.new s2) with
    | lt =>
      left
      refine ⟨rfl, ?_, by simp⟩
      cases hb : eqVS (VersionSpec.new s1) (VersionSpec.new s2) with
      | false => rfl
      | true =>
        rw [(eqVS_iff_cmpVS _ _).mp hb] at h
        exact absurd h (by simp)
    | eq =>
      right; left
      exact ⟨by simp, (eqVS_iff_cmpVS _ _).mpr h, by simp⟩
    | gt =>
      right; right
      refine ⟨by simp, ?_, rfl⟩
      cases hb : eqVS (VersionSpec.new s1) (VersionSpec.new s2) with
      | false => rfl
      | true =>
        rw [(eqVS_iff_cmpVS _ _).mp hb] at h
        exact absurd h (by simp)
  · intro hw1 hw2 hw3
    have key : ∀ _ : cmpVS (VersionSpec.new s1) (VersionSpec.new s2) ≠ .gt,
        ∀ _ : cmpVS (VersionSpec.new s2) (VersionSpec.new s3) ≠ .gt, _ :=
      fun hab hbc => cmpVS_trans_wf
        ((VersionSpec.new s1).length + (VersionSpec.new s2).length +
          (VersionSpec.new s3).length)
        (VersionSpec.new s1) (VersionSpec.new s2) (VersionSpec.new s3)
        le_rfl hw1 hw2 hw3 hab hbc
    refine ⟨?_, ?_, ?_⟩
    · intro hlt1 hlt2
      exact (key (by simp [hlt1]) (by simp [hlt2])).2.1 (Or.inl hlt1)
    · intro he1 he2
      have c1 := (eqVS_iff_cmpVS _ _).mp he1
      have c2 := (eqVS_iff_cmpVS _ _).mp he2
      exact (eqVS_iff_cmpVS _ _).mpr
        ((key (by simp [c1]) (by simp [c2])).2.2 c1 c2)
    · intro hle1 hle2
      exact (key hle1 hle2).1

/-- Witness for C3's amended theorem at `1.0`, `1.1`, `1.2`. -/
theorem version_order_trichotomy_and_wildfree_trans_witness :
    cmpVS (VersionSpec.new "1.0") (VersionSpec.new "1.2") = .lt :=
  ((version_order_trichotomy_and_wildfree_trans "1.0" "1.1" "1.2").2
    (by decide) (by decide) (by decide)).1 (by decide) (by decide)

/-- C5: the line `pip @ file:///b/pip-1.3.1-py33-none-any.whl` parses
into a DepSpec whose name and `==` version come from the wheel filename
(display `pip==1.3.1`), with the URL retained; and a package `pip` at
version `1.3.1` without a DirectURL passes the version clause yet fails
`validate_package`, because `validate_url` requires direct-URL
provenance when the spec has a URL. -/
theorem whl_spec_requires_direct_url :
    DepSpec.from_string "pip @ file:///b/pip-1.3.1-py33-none-any.whl" =
      .ok ⟨"pip", "pip", some "file:///b/pip-1.3.1-py33-none-any.whl",
        [.eq], [VersionSpec.new "1.3.1"], ""⟩ ∧
    DepSpec.display ⟨"pip", "pip", some "file:///b/pip-1.3.1-py33-none-any.whl",
        [.eq], [VersionSpec.new "1.3.1"], ""⟩ = "pip==1.3.1" ∧
    DepSpec.validate_version
      ⟨"pip", "pip", some "file:///b/pip-1.3.1-py33-none-any.whl",
        [.eq], [VersionSpec.new "1.3.1"], ""⟩ (VersionSpec.new "1.3.1") = true ∧
    DepSpec.validate_url
      ⟨"pip", "pip", some "file:///b/pip-1.3.1-py33-none-any.whl",
        [.eq], [VersionSpec.new "1.3.1"], ""⟩
      ⟨"pip", "pip", VersionSpec.new "1.3.1", none⟩ = false ∧
    DepSpec.validate_package
      ⟨"pip", "pip", some "file:///b/pip-1.3.1-py33-none-any.whl",
        [.eq], [VersionSpec.new "1.3.1"], ""⟩
      ⟨"pip", "pip", VersionSpec.new "1.3.1", none⟩ = false := by
  refine ⟨by rfl, by decide, by decide, by decide, by decide⟩

/-- C6: a DirectURL with url `https://host/r.git`, vcs `git` and
requested revision `tagX` validates the specifier URL
`git+https://user@host/r.git@tagX` (the reconstruction
`<vcs>+<stripped-url>@<revision>` matches after userinfo stripping);
and in general `DirectURL::validate` factors through
`url_strip_user` of the specifier URL, so the user component never
affects the outcome. -/
theorem vcs_url_user_stripped :
    DirectURL.validate ⟨"https://host/r.git", some ⟨"0123abcd", "git", some "tagX"⟩⟩
      "git+https://user@host/r.git@tagX" = true ∧
    ∀ (d : DirectURL) (u1 u2 : String), url_strip_user u1 = url_strip_user u2 →
      d.validate u1 = d.validate u2 := by
  constructor
  · decide
  · intro d u1 u2 h
    unfold DirectURL.validate
    rw [h]

/-- Witness for C6: dropping the userinfo from the specifier URL leaves
the validation outcome unchanged at a concrete input. -/
theorem vcs_url_user_stripped_witness :
    DirectURL.validate ⟨"https://host/r.git", some ⟨"0123abcd", "git", some "tagX"⟩⟩
      "git+https://user@host/r.git@tagX" =
    DirectURL.validate ⟨"https://host/r.git", some ⟨"0123abcd", "git", some "tagX"⟩⟩
      "git+https://host/r.git@tagX" :=
  vcs_url_user_stripped.2 _ _ _ (by decide)

/-- C7: the caret and tilde bounded intervals at the claim's inputs:
`1.7.1` caret-matches `1.20` but not `2`; `0.0.3` caret-matches
`0.0.3.9` but not `0.0.4`; `1.2` tilde-matches `1.2.9.1` but not `1.3`;
and the computed upper bounds increment the first non-zero leading
numeric component (caret) and the second numeric component (tilde). -/
theorem caret_tilde_examples :
    VersionSpec.is_caret (VersionSpec.new "1.7.1") (VersionSpec.new "1.20") = true ∧
    VersionSpec.is_caret (VersionSpec.new "1.7.1") (VersionSpec.new "2") = false ∧
    VersionSpec.is_caret (VersionSpec.new "0.0.3") (VersionSpec.new "0.0.3.9") = true ∧
    VersionSpec.is_caret (VersionSpec.new "0.0.3") (VersionSpec.new "0.0.4") = false ∧
    VersionSpec.is_tilde (VersionSpec.new "1.2") (VersionSpec.new "1.2.9.1") = true ∧
    VersionSpec.is_tilde (VersionSpec.new "1.2") (VersionSpec.new "1.3") = false ∧
    caretUB 3 (VersionSpec.new "1.7.1") 0 = [.number 2] ∧
    caretUB 3 (VersionSpec.new "0.0.3") 0 = [.number 0, .number 0, .number 4] ∧
    tildeUB 2 (VersionSpec.new "1.2") 0 = [.number 1, .number 3] := by
  refine ⟨by decide, by decide, by decide, by decide, by decide, by decide,
    by decide, by decide, by decide⟩

/-- C10 counterexample: parse-then-display is not the identity — the
numeric token `01` is re-rendered canonically as `1` — and arbitrary
equality therefore identifies the distinct inputs `01` and `1`. -/
theorem display_not_identity_on_noncanonical :
    (VersionSpec.new "01").display = "1" ∧
    VersionSpec.is_arbitrary_equal (VersionSpec.new "01") (VersionSpec.new "1")
      = true ∧
    "01" ≠ "1" := by
  refine ⟨by decide, by decide, by decide⟩

/-- C10 (amended): construction always succeeds (`VersionSpec.new` is
total), and display is the identity on every string whose numeric
tokens are in canonical decimal form (no leading `+`, no superfluous
leading zeros, fitting in 32 bits — any other token is kept verbatim);
under the same restriction arbitrary equality of two parsed versions
coincides with equality of the input strings. -/
theorem display_roundtrip_canonical (s1 s2 : String)
    (h1 : canonicalStr s1 = true) (h2 : canonicalStr s2 = true) :
    (VersionSpec.new s1).display = s1 ∧
    VersionSpec.is_arbitrary_equal (VersionSpec.new s1) (VersionSpec.new s2)
      = (s1 == s2) := by
  refine ⟨display_new_canonical h1, ?_⟩
  unfold VersionSpec.is_arbitrary_equal
  rw [display_new_canonical h1, display_new_canonical h2]

/-- Witness for C10's amended theorem at `1.2.3rc2` and `1.0`. -/
theorem display_roundtrip_canonical_witness :
    (VersionSpec.new "1.2.3rc2").display = "1.2.3rc2" :=
  (display_roundtrip_canonical "1.2.3rc2" "1.0" (by decide) (by decide)).1

/-- C2: constructing a manifest from two specifier lines with the same
normalized key succeeds without error and merges the duplicates into a
`Many` entry; but validating a package with that key then hits
`panic!("not implemented")` in `DepManifest::validate` (modelled as
`none`) instead of returning a pass/fail result — the selection of
marker-guarded variants at validation time is not implemented. -/
theorem duplicate_key_validate_panics :
    DepManifest.from_iter ["pk1>=1.0", "pk1<2.0"] =
      .ok [("pk1", .many
        [⟨"pk1", "pk1", none, [.greaterThanOrEq], [VersionSpec.new "1.0"], ""⟩,
         ⟨"pk1", "pk1", none, [.lessThan], [VersionSpec.new "2.0"], ""⟩])] ∧
    DepManifest.validate
      [("pk1", .many
        [⟨"pk1", "pk1", none, [.greaterThanOrEq], [VersionSpec.new "1.0"], ""⟩,
         ⟨"pk1", "pk1", none, [.lessThan], [VersionSpec.new "2.0"], ""⟩])]
      ⟨"pk1", "pk1", VersionSpec.new "1.5", none⟩ false = none := by
  refine ⟨by rfl, by rfl⟩

/-- C9: with `/d/a.txt` containing `-r b.txt` and `/d/b.txt`
containing `-r a.txt`, the `from_requirements_file` work queue never
empties: the source has no visited set, every pop of a file re-enqueues
its include target, so for every iteration bound the loop is still
running — ingestion does not terminate on this finite cyclic input. -/
theorem requirements_cycle_never_terminates :
    ∀ n : Nat, ∃ st : ReqState,
      reqRun [("/d/a.txt", ["-r b.txt"]), ("/d/b.txt", ["-r a.txt"])] n
        ⟨["/d/a.txt"], []⟩ = .running st := by
  have key : ∀ n : Nat, ∀ st : ReqState,
      (st.files ≠ [] ∧ ∀ f ∈ st.files, f = "/d/a.txt" ∨ f = "/d/b.txt") →
      ∃ st' : ReqState,
        reqRun [("/d/a.txt", ["-r b.txt"]), ("/d/b.txt", ["-r a.txt"])] n st
            = .running st' ∧
          (st'.files ≠ [] ∧
            ∀ f ∈ st'.files, f = "/d/a.txt" ∨ f = "/d/b.txt") := by
    intro n
    induction n with
    | zero =>
      intro st hP
      exact ⟨st, rfl, hP⟩
    | succ n ih =>
      rintro ⟨files, specs⟩ ⟨hne, hmem⟩
      cases files with
      | nil => exact absurd rfl hne
      | cons fp rest =>
        rcases hmem fp (by simp) with hfa | hfb
        · subst hfa
          have hstep : reqRun
              [("/d/a.txt", ["-r b.txt"]), ("/d/b.txt", ["-r a.txt"])] (n + 1)
              ⟨"/d/a.txt" :: rest, specs⟩
              = reqRun [("/d/a.txt", ["-r b.txt"]), ("/d/b.txt", ["-r a.txt"])] n
                ⟨rest ++ ["/d/b.txt"], specs⟩ := rfl
          rw [hstep]
          apply ih
          refine ⟨by simp, ?_⟩
          intro f hf
          rcases List.mem_append.mp hf with hf | hf
          · exact hmem f (by simp [hf])
          · simp at hf
            simp [hf]
        · subst hfb
          have hstep : reqRun
              [("/d/a.txt", ["-r b.txt"]), ("/d/b.txt", ["-r a.txt"])] (n + 1)
              ⟨"/d/b.txt" :: rest, specs⟩
              = reqRun [("/d/a.txt", ["-r b.txt"]), ("/d/b.txt", ["-r a.txt"])] n
                ⟨rest ++ ["/d/a.txt"], specs⟩ := rfl
          rw [hstep]
          apply ih
          refine ⟨by simp, ?_⟩
          intro f hf
          rcases List.mem_append.mp hf with hf | hf
          · exact hmem f (by simp [hf])
          · simp at hf
            simp [hf]
  intro n
  rcases key n ⟨["/d/a.txt"], []⟩ ⟨by simp, by simp⟩ with ⟨st', hrun, _⟩
  exact ⟨st', hrun⟩

--------------------------------------------------------------------------------
-- Lemma layer: sorting

theorem mem_insertLe {α : Type} (le : α → α → Bool) (x a : α) :
    ∀ l : List α, a ∈ insertLe le x l ↔ a = x ∨ a ∈ l := by
  intro l
  induction l with
  | nil => simp [insertLe]
  | cons y ys ih =>
    simp only [insertLe]
    by_cases h : le x y = true
    · simp [h]
    · simp only [if_neg h, List.mem_cons, ih]
      tauto

theorem mem_sortLe {α : Type} (le : α → α → Bool) (a : α) :
    ∀ l : List α, a ∈ sortLe le l ↔ a ∈ l := by
  intro l
  induction l with
  | nil => simp [sortLe]
  | cons x xs ih =>
    simp only [sortLe, mem_insertLe, ih, List.mem_cons]

theorem pairwise_insertLe {α : Type} (le : α → α → Bool) (P : α → Prop)
    (htrans : ∀ a b c, P a → P b → P c →
      le a b = true → le b c = true → le a c = true)
    (htot : ∀ a b, P a → P b → le a b = true ∨ le b a = true) :
    ∀ (x : α) (l : List α), P x → (∀ a ∈ l, P a) →
    l.Pairwise (fun a b => le a b = true) →
    (insertLe le x l).Pairwise (fun a b => le a b = true) := by
  intro x l
  induction l with
  | nil =>
    intro _ _ _
    simp [insertLe]
  | cons y ys ih =>
    intro hx hl hp
    rcases List.pairwise_cons.mp hp with ⟨hy, hys⟩
    simp only [insertLe]
    by_cases h : le x y = true
    · rw [if_pos h]
      apply List.pairwise_cons.mpr
      refine ⟨?_, hp⟩
      intro b hb
      rcases List.mem_cons.mp hb with rfl | hb
      · exact h
      · exact htrans x y b hx (hl y (by simp)) (hl b (by simp [hb])) h (hy b hb)
    · rw [if_neg h]
      apply List.pairwise_cons.mpr
      constructor
      · intro b hb
        rcases (mem_insertLe le x b ys).mp hb with hbx | hb
        · rw [hbx]
          rcases htot x y hx (hl y (by simp)) with h' | h'
          · exact absurd h' h
          · exact h'
        · exact hy b hb
      · exact ih hx (fun a ha => hl a (by simp [ha])) hys

theorem pairwise_sortLe {α : Type} (le : α → α → Bool) (P : α → Prop)
    (htrans : ∀ a b c, P a → P b → P c →
      le a b = true → le b c = true → le a c = true)
    (htot : ∀ a b, P a → P b → le a b = true ∨ le b a = true) :
    ∀ l : List α, (∀ a ∈ l, P a) →
    (sortLe le l).Pairwise (fun a b => le a b = true) := by
  intro l
  induction l with
  | nil => intro _; simp [sortLe]
  | cons x xs ih =>
    intro hl
    apply pairwise_insertLe le P htrans htot
    · exact hl x (by simp)
    · intro a ha
      exact hl a (by simp [(mem_sortLe le a xs).mp ha])
    · exact ih fun a ha => hl a (by simp [ha])

theorem pairwise_filterMap {α β : Type} (f : α → Option β) {R : α → α → Prop}
    {S : β → β → Prop}
    (h : ∀ a b, R a b → ∀ r, f a = some r → ∀ r', f b = some r' → S r r') :
    ∀ l : List α, l.Pairwise R → (l.filterMap f).Pairwise S := by
  intro l
  induction l with
  | nil => intro _; simp
  | cons x xs ih =>
    intro hp
    rcases List.pairwise_cons.mp hp with ⟨hx, hxs⟩
    cases hf : f x with
    | none => simpa [List.filterMap_cons, hf] using ih hxs
    | some r =>
      simp only [List.filterMap_cons, hf]
      apply List.pairwise_cons.mpr
      refine ⟨?_, ih hxs⟩
      intro r' hr'
      rcases List.mem_filterMap.mp hr' with ⟨b, hb, hfb⟩
      exact h x b (hx b hb) r hf r' hfb

--------------------------------------------------------------------------------
-- Lemma layer: key and package orders

theorem cmpStr_swap (a b : String) : cmpStr a b = (cmpStr b a).swap :=
  cmpChars_swap a.data b.data

theorem bne_gt_true_iff {o : Ordering} :
    (o != Ordering.gt) = true ↔ o ≠ Ordering.gt := by
  cases o <;> decide

theorem strLe_total (a b : String) : strLe a b = true ∨ strLe b a = true := by
  unfold strLe
  rw [cmpStr_swap]
  cases cmpStr b a <;> decide

theorem strLe_trans (a b c : String) :
    strLe a b = true → strLe b c = true → strLe a c = true := by
  unfold strLe
  intro h1 h2
  cases e1 : cmpStr a b with
  | gt => rw [e1] at h1; exact absurd h1 (by decide)
  | eq =>
    have hab : a = b := cmpStr_eq_iff.mp e1
    rw [hab]
    exact h2
  | lt =>
    cases e2 : cmpStr b c with
    | gt => rw [e2] at h2; exact absurd h2 (by decide)
    | eq =>
      have hbc : b = c := cmpStr_eq_iff.mp e2
      rw [← hbc, e1]
      decide
    | lt =>
      have h3 : cmpStr a c = .lt := cmpChars_lt_trans e1 e2
      rw [h3]
      decide

theorem cmpPackage_swap (a b : Package) :
    cmpPackage a b = (cmpPackage b a).swap := by
  unfold cmpPackage
  rw [cmpStr_swap]
  cases cmpStr b.key a.key <;>
    simp [Ordering.swap, cmpVS_swap a.version b.version]

theorem pkgLe_total (a b : Package) : pkgLe a b = true ∨ pkgLe b a = true := by
  unfold pkgLe
  rw [cmpPackage_swap]
  cases cmpPackage b a <;> decide

theorem pkgLe_trans_wf (a b c : Package)
    (hwa : wildFree a.version = true) (hwb : wildFree b.version = true)
    (hwc : wildFree c.version = true) :
    pkgLe a b = true → pkgLe b c = true → pkgLe a c = true := by
  unfold pkgLe cmpPackage
  intro h1 h2
  cases e1 : cmpStr a.key b.key with
  | gt => simp only [e1] at h1; exact absurd h1 (by decide)
  | lt =>
    cases e2 : cmpStr b.key c.key with
    | gt => simp only [e2] at h2; exact absurd h2 (by decide)
    | eq =>
      have hbc : b.key = c.key := cmpStr_eq_iff.mp e2
      have h3 : cmpStr a.key c.key = .lt := by rw [← hbc]; exact e1
      simp only [h3]
      decide
    | lt =>
      have h3 : cmpStr a.key c.key = .lt := cmpChars_lt_trans e1 e2
      simp only [h3]
      decide
  | eq =>
    have hab : a.key = b.key := cmpStr_eq_iff.mp e1
    simp only [e1] at h1
    cases e2 : cmpStr b.key c.key with
    | gt => simp only [e2] at h2; exact absurd h2 (by decide)
    | lt =>
      have h3 : cmpStr a.key c.key = .lt := by rw [hab]; exact e2
      simp only [h3]
      decide
    | eq =>
      simp only [e2] at h2
      have h3 : cmpStr a.key c.key = .eq := by rw [hab]; exact e2
      simp only [h3]
      have hne1 : cmpVS a.version b.version ≠ .gt := bne_gt_true_iff.mp h1
      have hne2 : cmpVS b.version c.version ≠ .gt := bne_gt_true_iff.mp h2
      have hkey := (cmpVS_trans_wf
        (a.version.length + b.version.length + c.version.length)
        a.version b.version c.version le_rfl hwa hwb hwc hne1 hne2).1
      exact bne_gt_true_iff.mpr hkey

--------------------------------------------------------------------------------
-- Lemma layer: manifest lookups

theorem lookupSpec_mem : ∀ {dm : DepManifest} {k : String}
    {v : DepSpecOneOrMany}, lookupSpec dm k = some v → (k, v) ∈ dm := by
  intro dm
  induction dm with
  | nil =>
    intro k v h
    simp [lookupSpec, List.lookup] at h
  | cons e rest ih =>
    intro k v h
    rcases e with ⟨k', v'⟩
    simp only [lookupSpec, List.lookup] at h
    by_cases hk : (k == k') = true
    · simp only [hk] at h
      have hk2 : k = k' := by simpa using hk
      have hv : v' = v := by simpa using h
      rw [hk2, ← hv]
      simp
    · have hkf : (k == k') = false := by simpa using hk
      simp only [hkf] at h
      exact List.mem_cons_of_mem _ (ih h)

theorem mem_keys_lookup : ∀ {dm : DepManifest} {k : String},
    k ∈ dm.map (·.1) → ∃ v, lookupSpec dm k = some v := by
  intro dm
  induction dm with
  | nil =>
    intro k h
    simp at h
  | cons e rest ih =>
    intro k h
    rcases e with ⟨k', v'⟩
    simp only [lookupSpec, List.lookup]
    by_cases hk : (k == k') = true
    · exact ⟨v', by simp only [hk]⟩
    · have hkf : (k == k') = false := by simpa using hk
      simp only [hkf]
      have h2 : k = k' ∨ k ∈ rest.map (·.1) := by simpa using h
      rcases h2 with hh | hh
      · exact absurd (by simp [hh] : (k == k') = true) hk
      · exact ih hh

/-- On a well-formed manifest (every entry `One`, keyed by its spec's
key) a successful lookup returns a `One` whose spec key is the query. -/
theorem lookupSpec_one {dm : DepManifest} {k : String} {v : DepSpecOneOrMany}
    (hdm : ∀ e ∈ dm, ∃ ds, e.2 = DepSpecOneOrMany.one ds ∧ ds.key = e.1)
    (h : lookupSpec dm k = some v) :
    ∃ ds, v = DepSpecOneOrMany.one ds ∧ ds.key = k := by
  rcases hdm _ (lookupSpec_mem h) with ⟨ds, hds, hkey⟩
  exact ⟨ds, hds, hkey⟩

--------------------------------------------------------------------------------
-- Lemma layer: Forall₂ helpers and ordered-checker bridges

theorem forall₂_mem_right {α β : Type} {rel : α → β → Prop} :
    ∀ {ks : List α} {B : List β}, List.Forall₂ rel ks B →
    ∀ r ∈ B, ∃ k ∈ ks, rel k r := by
  intro ks B h
  induction h with
  | nil => simp
  | cons h1 h2 ih =>
    intro r hr
    rcases List.mem_cons.mp hr with rfl | hr
    · exact ⟨_, by simp, h1⟩
    · rcases ih r hr with ⟨k, hk, hrel⟩
      exact ⟨k, by simp [hk], hrel⟩

theorem forall₂_mem_left {α β : Type} {rel : α → β → Prop} :
    ∀ {ks : List α} {B : List β}, List.Forall₂ rel ks B →
    ∀ k ∈ ks, ∃ r ∈ B, rel k r := by
  intro ks B h
  induction h with
  | nil => simp
  | cons h1 h2 ih =>
    intro k hk
    rcases List.mem_cons.mp hk with rfl | hk
    · exact ⟨_, by simp, h1⟩
    · rcases ih k hk with ⟨r, hr, hrel⟩
      exact ⟨r, by simp [hr], hrel⟩

theorem pairwise_of_forall₂ {α β : Type} {rel : α → β → Prop}
    {P : α → α → Prop} {Q : β → β → Prop} :
    ∀ {ks : List α} {B : List β}, List.Forall₂ rel ks B →
    ks.Pairwise P →
    (∀ k k' r r', P k k' → rel k r → rel k' r' → Q r r') →
    B.Pairwise Q := by
  intro ks B h
  induction h with
  | nil =>
    intro _ _
    exact List.Pairwise.nil
  | @cons k r ks' B' hrel hall ih =>
    intro hp himp
    rcases List.pairwise_cons.mp hp with ⟨hk, hks⟩
    apply List.pairwise_cons.mpr
    refine ⟨?_, ih hks himp⟩
    intro r' hr'
    rcases forall₂_mem_right hall r' hr' with ⟨k', hk', hrel'⟩
    exact himp k k' r r' (hk k' hk') hrel hrel'

theorem recsOrdered_of_pairwise :
    ∀ l : List ValidationRecord,
    l.Pairwise (fun a b => recLe a b = true) → recsOrdered l = true := by
  intro l
  induction l with
  | nil => intro _; rfl
  | cons r rest ih =>
    intro hp
    rcases List.pairwise_cons.mp hp with ⟨hr, hrest⟩
    simp only [recsOrdered, Bool.and_eq_true, List.all_eq_true]
    exact ⟨fun a ha => hr a ha, ih hrest⟩

theorem missOrdered_of_pairwise :
    ∀ l : List ValidationRecord,
    l.Pairwise (fun a b =>
      (match a.dep_spec, b.dep_spec with
       | some x, some y => strLe x.key y.key
       | _, _ => true) = true) → missOrdered l = true := by
  intro l
  induction l with
  | nil => intro _; rfl
  | cons r rest ih =>
    intro hp
    rcases List.pairwise_cons.mp hp with ⟨hr, hrest⟩
    simp only [missOrdered, Bool.and_eq_true, List.all_eq_true]
    exact ⟨fun a ha => hr a ha, ih hrest⟩

--------------------------------------------------------------------------------
-- Lemma layer: the validation-report loops in clean form

theorem mem_insertKey (s : List String) (k a : String) :
    a ∈ insertKey s k ↔ a ∈ s ∨ a = k := by
  unfold insertKey
  by_cases h : s.contains k = true
  · rw [if_pos h]
    constructor
    · exact Or.inl
    · rintro (hs | rfl)
      · exact hs
      · exact List.elem_iff.mp h
  · rw [if_neg h]
    simp

theorem tvrLoop_spec (dm : DepManifest) (vf : ValidationFlags) (scan : ScanFS)
    (hdm : ∀ e ∈ dm, ∃ ds, e.2 = DepSpecOneOrMany.one ds ∧ ds.key = e.1) :
    ∀ (pkgs : List Package) (recs : List ValidationRecord)
      (matched : List String),
    ∃ matchedOut : List String,
      tvrLoop dm vf scan pkgs recs matched
        = some (recs ++ pkgs.filterMap (recOf dm vf scan), matchedOut) ∧
      ∀ k, k ∈ matchedOut ↔
        (k ∈ matched ∨ ∃ p, p ∈ pkgs ∧ p.key = k ∧
          lookupSpec dm p.key ≠ none) := by
  intro pkgs
  induction pkgs with
  | nil =>
    intro recs matched
    refine ⟨matched, by simp [tvrLoop], ?_⟩
    intro k
    simp
  | cons p rest ih =>
    intro recs matched
    cases hl : lookupSpec dm p.key with
    | none =>
      have hv : dm.validate p vf.permit_superset
          = some (vf.permit_superset, none) := by
        unfold DepManifest.validate
        rw [hl]
      have hro : recOf dm vf scan p
          = if vf.permit_superset then none
            else some ⟨some p, none, scan.sitesFor p⟩ := by
        unfold recOf
        rw [hl]
      cases hsup : vf.permit_superset with
      | true =>
        rcases ih recs matched with ⟨mOut, hrun, hmem⟩
        have hstep : tvrLoop dm vf scan (p :: rest) recs matched
            = tvrLoop dm vf scan rest recs matched := by
          rw [hsup] at hv
          simp [tvrLoop, hsup, hv]
        refine ⟨mOut, ?_, ?_⟩
        · rw [hstep, hrun]
          simp [List.filterMap_cons, hro, hsup]
        · intro k
          rw [hmem k]
          constructor
          · rintro (hm | ⟨p', hp', hke, hne⟩)
            · exact Or.inl hm
            · exact Or.inr ⟨p', by simp [hp'], hke, hne⟩
          · rintro (hm | ⟨p', hp', hke, hne⟩)
            · exact Or.inl hm
            · rcases List.mem_cons.mp hp' with rfl | hp'
              · exact absurd hl hne
              · exact Or.inr ⟨p', hp', hke, hne⟩
      | false =>
        rcases ih (recs ++ [⟨some p, none, scan.sitesFor p⟩]) matched
          with ⟨mOut, hrun, hmem⟩
        have hstep : tvrLoop dm vf scan (p :: rest) recs matched
            = tvrLoop dm vf scan rest
              (recs ++ [⟨some p, none, scan.sitesFor p⟩]) matched := by
          rw [hsup] at hv
          simp [tvrLoop, hsup, hv]
        refine ⟨mOut, ?_, ?_⟩
        · rw [hstep, hrun]
          simp [List.filterMap_cons, hro, hsup]
        · intro k
          rw [hmem k]
          constructor
          · rintro (hm | ⟨p', hp', hke, hne⟩)
            · exact Or.inl hm
            · exact Or.inr ⟨p', by simp [hp'], hke, hne⟩
          · rintro (hm | ⟨p', hp', hke, hne⟩)
            · exact Or.inl hm
            · rcases List.mem_cons.mp hp' with rfl | hp'
              · exact absurd hl hne
              · exact Or.inr ⟨p', hp', hke, hne⟩
    | some v =>
      rcases lookupSpec_one hdm hl with ⟨ds, rfl, hkey⟩
      have hv : dm.validate p vf.permit_superset
          = some (ds.validate_package p, some ds) := by
        unfold DepManifest.validate
        rw [hl]
      cases hvp : ds.validate_package p with
      | true =>
        have hro : recOf dm vf scan p = none := by
          unfold recOf
          rw [hl]
          simp [hvp]
        rcases ih recs (insertKey matched ds.key) with ⟨mOut, hrun, hmem⟩
        have hstep : tvrLoop dm vf scan (p :: rest) recs matched
            = tvrLoop dm vf scan rest recs (insertKey matched ds.key) := by
          simp [tvrLoop, hv, hvp]
        refine ⟨mOut, ?_, ?_⟩
        · rw [hstep, hrun]
          simp [List.filterMap_cons, hro]
        · intro k
          rw [hmem k, mem_insertKey]
          constructor
          · rintro ((hm | hk) | ⟨p', hp', hke, hne⟩)
            · exact Or.inl hm
            · refine Or.inr ⟨p, by simp, ?_, by simp [hl]⟩
              rw [hkey] at hk
              exact hk.symm
            · exact Or.inr ⟨p', by simp [hp'], hke, hne⟩
          · rintro (hm | ⟨p', hp', hke, hne⟩)
            · exact Or.inl (Or.inl hm)
            · rcases List.mem_cons.mp hp' with rfl | hp'
              · exact Or.inl (Or.inr (by rw [← hke, hkey]))
              · exact Or.inr ⟨p', hp', hke, hne⟩
      | false =>
        have hro : recOf dm vf scan p
            = some ⟨some p, some ds, scan.sitesFor p⟩ := by
          unfold recOf
          rw [hl]
          simp [hvp]
        rcases ih (recs ++ [⟨some p, some ds, scan.sitesFor p⟩])
          (insertKey matched ds.key) with ⟨mOut, hrun, hmem⟩
        have hstep : tvrLoop dm vf scan (p :: rest) recs matched
            = tvrLoop dm vf scan rest
              (recs ++ [⟨some p, some ds, scan.sitesFor p⟩])
              (insertKey matched ds.key) := by
          simp [tvrLoop, hv, hvp]
        refine ⟨mOut, ?_, ?_⟩
        · rw [hstep, hrun]
          simp [List.filterMap_cons, hro]
        · intro k
          rw [hmem k, mem_insertKey]
          constructor
          · rintro ((hm | hk) | ⟨p', hp', hke, hne⟩)
            · exact Or.inl hm
            · refine Or.inr ⟨p, by simp, ?_, by simp [hl]⟩
              rw [hkey] at hk
              exact hk.symm
            · exact Or.inr ⟨p', by simp [hp'], hke, hne⟩
          · rintro (hm | ⟨p', hp', hke, hne⟩)
            · exact Or.inl (Or.inl hm)
            · rcases List.mem_cons.mp hp' with rfl | hp'
              · exact Or.inl (Or.inr (by rw [← hke, hkey]))
              · exact Or.inr ⟨p', hp', hke, hne⟩

theorem missLoop_spec (dm : DepManifest)
    (hdm : ∀ e ∈ dm, ∃ ds, e.2 = DepSpecOneOrMany.one ds ∧ ds.key = e.1) :
    ∀ ks : List String, (∀ k ∈ ks, ∃ v, lookupSpec dm k = some v) →
    ∃ B, missLoop dm ks = some B ∧
      List.Forall₂ (fun k r => ∃ ds,
        lookupSpec dm k = some (DepSpecOneOrMany.one ds) ∧
        ds.key = k ∧ r = ⟨none, some ds, none⟩) ks B := by
  intro ks
  induction ks with
  | nil =>
    intro _
    exact ⟨[], rfl, List.Forall₂.nil⟩
  | cons k ks ih =>
    intro hmem
    rcases hmem k (by simp) with ⟨v, hv⟩
    rcases lookupSpec_one hdm hv with ⟨ds, rfl, hkey⟩
    rcases ih (fun k' hk' => hmem k' (by simp [hk'])) with ⟨B, hB, hF⟩
    refine ⟨⟨none, some ds, none⟩ :: B, ?_, ?_⟩
    · have hg : dm.get_dep_spec k = some (some ds) := by
        unfold DepManifest.get_dep_spec
        rw [hv]
      simp [missLoop, hg, hB]
    · exact List.Forall₂.cons ⟨ds, hv, hkey, rfl⟩ hF

theorem tvr_spec (scan : ScanFS) (dm : DepManifest) (vf : ValidationFlags)
    (hdm : ∀ e ∈ dm, ∃ ds, e.2 = DepSpecOneOrMany.one ds ∧ ds.key = e.1) :
    ∃ (matchedOut : List String) (B : List ValidationRecord),
      scan.to_validation_report dm vf
        = some (scan.get_packages.filterMap (recOf dm vf scan) ++ B) ∧
      (∀ k, k ∈ matchedOut ↔ ∃ p, p ∈ scan.get_packages ∧ p.key = k ∧
        lookupSpec dm p.key ≠ none) ∧
      ((vf.permit_subset = true ∧ B = []) ∨
       (vf.permit_subset = false ∧
        List.Forall₂ (fun k r => ∃ ds,
          lookupSpec dm k = some (DepSpecOneOrMany.one ds) ∧
          ds.key = k ∧ r = ⟨none, some ds, none⟩)
          (dm.get_dep_spec_difference matchedOut) B)) := by
  rcases tvrLoop_spec dm vf scan hdm scan.get_packages [] []
    with ⟨mOut, hrun, hmem⟩
  cases hsub : vf.permit_subset with
  | true =>
    refine ⟨mOut, [], ?_, ?_, Or.inl ⟨rfl, rfl⟩⟩
    · unfold ScanFS.to_validation_report
      rw [hrun]
      simp [hsub]
    · intro k
      rw [hmem k]
      simp
  | false =>
    have hks : ∀ k ∈ dm.get_dep_spec_difference mOut,
        ∃ v, lookupSpec dm k = some v := by
      intro k hk
      unfold DepManifest.get_dep_spec_difference at hk
      have hk2 := (mem_sortLe _ _ _).mp hk
      exact mem_keys_lookup (List.mem_of_mem_filter hk2)
    rcases missLoop_spec dm hdm _ hks with ⟨B, hB, hF⟩
    refine ⟨mOut, B, ?_, ?_, Or.inr ⟨rfl, hF⟩⟩
    · unfold ScanFS.to_validation_report
      rw [hrun]
      simp [hsub, hB]
    · intro k
      rw [hmem k]
      simp

theorem recOf_package {dm : DepManifest} {vf : ValidationFlags} {scan : ScanFS}
    {p : Package} {r : ValidationRecord} (h : recOf dm vf scan p = some r) :
    r.package = some p := by
  unfold recOf at h
  split at h
  · split at h
    · exact absurd h (by simp)
    · rw [← Option.some.inj h]
  · exact absurd h (by simp)
  · split at h
    · exact absurd h (by simp)
    · rw [← Option.some.inj h]

theorem recOf_dep_spec_none {dm : DepManifest} {vf : ValidationFlags}
    {scan : ScanFS} {p : Package} {r : ValidationRecord}
    (h : recOf dm vf scan p = some r) (hspec : r.dep_spec = none) :
    vf.permit_superset = false := by
  unfold recOf at h
  split at h
  · split at h
    · exact absurd h (by simp)
    · have hr := Option.some.inj h
      rw [← hr] at hspec
      simp at hspec
  · exact absurd h (by simp)
  · split at h
    · exact absurd h (by simp)
    · rename_i hsup
      cases hb : vf.permit_superset
      · rfl
      · exact absurd hb hsup

theorem recOf_none_emit {dm : DepManifest} {vf : ValidationFlags}
    {scan : ScanFS} {p : Package} (hl : lookupSpec dm p.key = none)
    (hsup : vf.permit_superset = false) :
    recOf dm vf scan p = some ⟨some p, none, scan.sitesFor p⟩ := by
  unfold recOf
  split
  · rename_i ds heq
    rw [hl] at heq
    cases heq
  · rename_i l heq
    rw [hl] at heq
    cases heq
  · rw [hsup]
    simp

/-- C4 counterexample: with a duplicate-key (`Many`) entry in the
constraint set, an observed package `pk1` matching it and another
observed package `zzz` matching nothing, `permit_superset = false`, the
report aborts in `DepManifest::validate`'s `panic!("not implemented")`
— no record at all, in particular no unrequired record for `zzz`, is
emitted, so the claimed iff fails for this scan and constraint set. -/
theorem validation_report_aborts_on_many :
    ScanFS.to_validation_report
      ⟨[(⟨"pk1", "pk1", VersionSpec.new "1.5", none⟩, ["/s"]),
        (⟨"zzz", "zzz", VersionSpec.new "1.0", none⟩, ["/s"])]⟩
      [("pk1", .many
        [⟨"pk1", "pk1", none, [.greaterThanOrEq], [VersionSpec.new "1.0"], ""⟩,
         ⟨"pk1", "pk1", none, [.lessThan], [VersionSpec.new "2.0"], ""⟩])]
      ⟨false, false⟩ = none := by rfl

/-- C4 (amended): for every scan and every constraint set whose keys
each hold a single specifier (so that validation completes instead of
panicking on a merged multi-entry), and every produced report: an
unrequired record (package, no spec) is emitted for an observed package
with no matching key iff `permit_superset` is false, and a missing
record (no package, spec with that key) is emitted for a manifest key
matched by no observed package iff `permit_subset` is false. -/
theorem subset_superset_flags_iff (scan : ScanFS) (dm : DepManifest)
    (vf : ValidationFlags) (report : List ValidationRecord)
    (hdm : ∀ e ∈ dm, ∃ ds, e.2 = DepSpecOneOrMany.one ds ∧ ds.key = e.1)
    (hres : scan.to_validation_report dm vf = some report) :
    (∀ p, p ∈ scan.get_packages → lookupSpec dm p.key = none →
      ((∃ r, r ∈ report ∧ r.package = some p ∧ r.dep_spec = none) ↔
        vf.permit_superset = false)) ∧
    (∀ k, k ∈ dm.map (·.1) → (∀ p, p ∈ scan.get_packages → p.key ≠ k) →
      ((∃ r, r ∈ report ∧ r.package = none ∧
          ∃ ds, r.dep_spec = some ds ∧ ds.key = k) ↔
        vf.permit_subset = false)) := by
  rcases tvr_spec scan dm vf hdm with ⟨mOut, B, hrep, hmem, hB⟩
  rw [hres] at hrep
  have hrep' : report = scan.get_packages.filterMap (recOf dm vf scan) ++ B :=
    Option.some.inj hrep
  constructor
  · intro p hp hlnone
    constructor
    · rintro ⟨r, hr, hpkg, hspec⟩
      rw [hrep'] at hr
      rcases List.mem_append.mp hr with hrA | hrB
      · rcases List.mem_filterMap.mp hrA with ⟨p', _, hf⟩
        exact recOf_dep_spec_none hf hspec
      · rcases hB with ⟨_, hBe⟩ | ⟨_, hF⟩
        · rw [hBe] at hrB
          simp at hrB
        · rcases forall₂_mem_right hF r hrB with ⟨k', _, ds, _, _, hrEq⟩
          rw [hrEq] at hpkg
          simp at hpkg
    · intro hsup
      refine ⟨⟨some p, none, scan.sitesFor p⟩, ?_, rfl, rfl⟩
      rw [hrep']
      exact List.mem_append_left _
        (List.mem_filterMap.mpr ⟨p, hp, recOf_none_emit hlnone hsup⟩)
  · intro k hkkeys hknopkg
    constructor
    · rintro ⟨r, hr, hpkg, ds, hspec, hdskey⟩
      rw [hrep'] at hr
      rcases List.mem_append.mp hr with hrA | hrB
      · rcases List.mem_filterMap.mp hrA with ⟨p', _, hf⟩
        rw [recOf_package hf] at hpkg
        exact absurd hpkg (by simp)
      · rcases hB with ⟨hst, hBe⟩ | ⟨hsf, _⟩
        · rw [hBe] at hrB
          simp at hrB
        · exact hsf
    · intro hsub
      rcases hB with ⟨hst, _⟩ | ⟨_, hF⟩
      · rw [hst] at hsub
        exact absurd hsub (by simp)
      · have hkdiff : k ∈ dm.get_dep_spec_difference mOut := by
          unfold DepManifest.get_dep_spec_difference
          apply (mem_sortLe _ _ _).mpr
          apply List.mem_filter.mpr
          refine ⟨hkkeys, ?_⟩
          have hnot : k ∉ mOut := by
            intro hkm
            rcases (hmem k).mp hkm with ⟨p', hp', hke, _⟩
            exact hknopkg p' hp' hke
          cases hc : mOut.contains k
          · rfl
          · exact absurd (List.elem_iff.mp hc) hnot
        rcases forall₂_mem_left hF k hkdiff with ⟨r, hrB, ds, hlds, hdskey, hrEq⟩
        refine ⟨r, ?_, ?_, ds, ?_, hdskey⟩
        · rw [hrep']
          exact List.mem_append_right _ hrB
        · rw [hrEq]
        · rw [hrEq]

/-- Witness for C4's amended theorem on a one-package, one-spec system
with both flags false: the unrequired record for `zzz` and the missing
record for `pk1` are both present in the concrete report. -/
theorem subset_superset_flags_iff_witness :
    (∃ r, r ∈
        ([⟨some ⟨"zzz", "zzz", VersionSpec.new "1.0", none⟩, none, some ["/s"]⟩,
          ⟨none, some ⟨"pk1", "pk1", none, [.eq], [VersionSpec.new "1.0"], ""⟩,
            none⟩] : List ValidationRecord) ∧
      r.package = some ⟨"zzz", "zzz", VersionSpec.new "1.0", none⟩ ∧
      r.dep_spec = none) ∧
    (∃ r, r ∈
        ([⟨some ⟨"zzz", "zzz", VersionSpec.new "1.0", none⟩, none, some ["/s"]⟩,
          ⟨none, some ⟨"pk1", "pk1", none, [.eq], [VersionSpec.new "1.0"], ""⟩,
            none⟩] : List ValidationRecord) ∧
      r.package = none ∧
      ∃ ds, r.dep_spec = some ds ∧ ds.key = "pk1") := by
  have h := subset_superset_flags_iff
    ⟨[(⟨"zzz", "zzz", VersionSpec.new "1.0", none⟩, ["/s"])]⟩
    [("pk1", .one ⟨"pk1", "pk1", none, [.eq], [VersionSpec.new "1.0"], ""⟩)]
    ⟨false, false⟩
    [⟨some ⟨"zzz", "zzz", VersionSpec.new "1.0", none⟩, none, some ["/s"]⟩,
     ⟨none, some ⟨"pk1", "pk1", none, [.eq], [VersionSpec.new "1.0"], ""⟩, none⟩]
    (by
      intro e he
      rw [List.mem_singleton.mp he]
      exact ⟨⟨"pk1", "pk1", none, [.eq], [VersionSpec.new "1.0"], ""⟩, rfl, rfl⟩)
    (by rfl)
  exact ⟨(h.1 ⟨"zzz", "zzz", VersionSpec.new "1.0", none⟩ (by decide)
      (by decide)).mpr rfl,
    (h.2 "pk1" (by decide) (by decide)).mpr rfl⟩

/-- C8 counterexample: with wildcard versions the `(key, version)`
comparison is not a total order, and the emitted package records need
not be pairwise sorted: packages `pk-1.*.1`, `pk-1.1.2`, `pk-1.2.0`
against an empty manifest produce three unrequired records in that
order, yet the first record's package compares greater than the
third's, so no pairwise `(key, version)` sort order holds. -/
theorem report_order_wildcard_unsorted :
    ScanFS.to_validation_report
      ⟨[(⟨"pk", "pk", VersionSpec.new "1.*.1", none⟩, ["/s"]),
        (⟨"pk", "pk", VersionSpec.new "1.1.2", none⟩, ["/s"]),
        (⟨"pk", "pk", VersionSpec.new "1.2.0", none⟩, ["/s"])]⟩
      [] ⟨false, false⟩
      = some
        [⟨some ⟨"pk", "pk", VersionSpec.new "1.*.1", none⟩, none, some ["/s"]⟩,
         ⟨some ⟨"pk", "pk", VersionSpec.new "1.1.2", none⟩, none, some ["/s"]⟩,
         ⟨some ⟨"pk", "pk", VersionSpec.new "1.2.0", none⟩, none,
           some ["/s"]⟩] ∧
    recsOrdered
        [⟨some ⟨"pk", "pk", VersionSpec.new "1.*.1", none⟩, none, some ["/s"]⟩,
         ⟨some ⟨"pk", "pk", VersionSpec.new "1.1.2", none⟩, none, some ["/s"]⟩,
         ⟨some ⟨"pk", "pk", VersionSpec.new "1.2.0", none⟩, none, some ["/s"]⟩]
      = false ∧
    pkgLe ⟨"pk", "pk", VersionSpec.new "1.*.1", none⟩
      ⟨"pk", "pk", VersionSpec.new "1.2.0", none⟩ = false := by
  refine ⟨by rfl, by decide, by decide⟩

/-- C8 (amended): for every scan whose observed versions are
wildcard-free, every single-specifier-per-key constraint set, and every
produced report: the report splits into the per-package records
(misdefined and unrequired, each carrying its package) in pairwise
`(key, version)` order, followed by the missing records (no package,
each carrying a spec) in pairwise key order. -/
theorem report_order_segments (scan : ScanFS) (dm : DepManifest)
    (vf : ValidationFlags) (report : List ValidationRecord)
    (hwf : ∀ e ∈ scan.package_to_sites, wildFree e.1.version = true)
    (hdm : ∀ e ∈ dm, ∃ ds, e.2 = DepSpecOneOrMany.one ds ∧ ds.key = e.1)
    (hres : scan.to_validation_report dm vf = some report) :
    ∃ A B, report = A ++ B ∧
      (∀ r ∈ A, ∃ p, r.package = some p) ∧
      (∀ r ∈ B, r.package = none ∧ ∃ ds, r.dep_spec = some ds) ∧
      recsOrdered A = true ∧ missOrdered B = true := by
  rcases tvr_spec scan dm vf hdm with ⟨mOut, B, hrep, hmem, hB⟩
  rw [hres] at hrep
  have hrep' : report = scan.get_packages.filterMap (recOf dm vf scan) ++ B :=
    Option.some.inj hrep
  refine ⟨scan.get_packages.filterMap (recOf dm vf scan), B, hrep',
    ?_, ?_, ?_, ?_⟩
  · intro r hr
    rcases List.mem_filterMap.mp hr with ⟨p, _, hf⟩
    exact ⟨p, recOf_package hf⟩
  · rcases hB with ⟨_, hBe⟩ | ⟨_, hF⟩
    · rw [hBe]
      intro r hr
      simp at hr
    · intro r hr
      rcases forall₂_mem_right hF r hr with ⟨k, _, ds, _, _, hrEq⟩
      rw [hrEq]
      exact ⟨rfl, ds, rfl⟩
  · apply recsOrdered_of_pairwise
    apply pairwise_filterMap (recOf dm vf scan)
      (R := fun a b => pkgLe a b = true)
    · intro a b hab r hra r' hrb
      have hpa := recOf_package hra
      have hpb := recOf_package hrb
      unfold recLe
      rw [hpa, hpb]
      exact hab
    · unfold ScanFS.get_packages
      apply pairwise_sortLe pkgLe (fun p => wildFree p.version = true)
      · intro a b c ha hb hc hab hbc
        exact pkgLe_trans_wf a b c ha hb hc hab hbc
      · intro a b _ _
        exact pkgLe_total a b
      · intro p hp
        rcases List.mem_map.mp hp with ⟨e, he, hep⟩
        rw [← hep]
        exact hwf e he
  · rcases hB with ⟨_, hBe⟩ | ⟨_, hF⟩
    · rw [hBe]
      rfl
    · apply missOrdered_of_pairwise
      apply pairwise_of_forall₂ (P := fun a b => strLe a b = true) hF
      · unfold DepManifest.get_dep_spec_difference
        apply pairwise_sortLe strLe (fun _ => True)
        · intro a b c _ _ _ hab hbc
          exact strLe_trans a b c hab hbc
        · intro a b _ _
          exact strLe_total a b
        · intro _ _
          trivial
      · intro k k' r r' hP hrel hrel'
        rcases hrel with ⟨ds, _, hdk, hrEq⟩
        rcases hrel' with ⟨ds', _, hdk', hrEq'⟩
        rw [hrEq, hrEq']
        show strLe ds.key ds'.key = true
        rw [hdk, hdk']
        exact hP

/-- Witness for C8's amended theorem on the one-package, one-spec
system: the concrete report splits into an ordered package segment and
an ordered missing segment. -/
theorem report_order_segments_witness :
    ∃ A B,
      ([⟨some ⟨"zzz", "zzz", VersionSpec.new "1.0", none⟩, none, some ["/s"]⟩,
        ⟨none, some ⟨"pk1", "pk1", none, [.eq], [VersionSpec.new "1.0"], ""⟩,
          none⟩] : List ValidationRecord) = A ++ B ∧
      (∀ r ∈ A, ∃ p, r.package = some p) ∧
      (∀ r ∈ B, r.package = none ∧ ∃ ds, r.dep_spec = some ds) ∧
      recsOrdered A = true ∧ missOrdered B = true :=
  report_order_segments
    ⟨[(⟨"zzz", "zzz", VersionSpec.new "1.0", none⟩, ["/s"])]⟩
    [("pk1", .one ⟨"pk1", "pk1", none, [.eq], [VersionSpec.new "1.0"], ""⟩)]
    ⟨false, false⟩
    [⟨some ⟨"zzz", "zzz", VersionSpec.new "1.0", none⟩, none, some ["/s"]⟩,
     ⟨none, some ⟨"pk1", "pk1", none, [.eq], [VersionSpec.new "1.0"], ""⟩, none⟩]
    (by
      intro e he
      rw [List.mem_singleton.mp he]
      decide)
    (by
      intro e he
      rw [List.mem_singleton.mp he]
      exact ⟨⟨"pk1", "pk1", none, [.eq], [VersionSpec.new "1.0"], ""⟩, rfl, rfl⟩)
    (by rfl)

end Vigil
